import Mathlib

/-!
# ARC-Lab-UF/intel-training-modules: a verification development

Shallow embedding of

* the `AFU` host wrapper (`RTL/examples/dma/sw/AFU.cpp`, `AFU.h` of
  `RTL/examples/dma_loopback/sw`, and the `mmio_fib` sibling),
* the SYCL accumulation tutorials (`SYCL/examples/accum/accum_strategy*.cpp`),
  with the command-line handling they share with `usm_vs_buffers*.cpp`, and
* the copy functions of `usm_vs_buffers1.cpp`, the `Matrix` class of
  `matrix_add_dynamic3.cpp` and the kernel of `saxpy_int.cpp`.

Machine integers are `Nat`/`Int` with explicit reduction modulo `2^w`.
Exceptions are values of `Except`; out-of-bounds array accesses are `none`.
-/

/-! ## Part 1: the AFU wrapper -/

namespace AFU

/-- Modelled from the spec: the vendor SDK's `fpga_result` status enumeration
(declared in the OPAE headers, which are not part of the repository). Only the
three statuses the wrapper names are distinguished; every other status is
`FPGA_OTHER code`. -/
inductive fpga_result where
  | FPGA_OK
  | FPGA_BUSY
  | FPGA_NOT_FOUND
  | FPGA_OTHER (code : Nat)
  deriving DecidableEq, Repr

/-- What a member function of `AFU` can throw: a `std::runtime_error` with its
message, or a bare `fpga_result` status (`throw status;`, `throw FPGA_BUSY;`). -/
inductive Thrown where
  | runtime_error (what : String)
  | status (s : fpga_result)
  deriving DecidableEq, Repr

/-- The enumeration `enum PageOptions {PAGE_4KB=0, PAGE_2MB, PAGE_1GB}` (AFU.h): an enumerator
is carried as its integer value, so that values outside the three enumerators
(which a cast can produce) are representable. -/
def PAGE_4KB : Int := 0

/-- Second enumerator of `PageOptions`. -/
def PAGE_2MB : Int := 1

/-- Third enumerator of `PageOptions`. -/
def PAGE_1GB : Int := 2

/-- The table `const unsigned AFU::PAGE_SIZES[] = {4096, 2097152, 1073741824};` -/
def PAGE_SIZES : List Nat := [4096, 2097152, 1073741824]

/-- Width of `unsigned` in bits. -/
def UNSIGNED_BITS : Nat := 32

/-- Width of `size_t` / `uint64_t` in bits. -/
def SIZE_BITS : Nat := 64

/-- The expression `(bytes + page_size - 1) & -page_size` of `AFU::alloc`, with
`bytes : size_t` and `page_size : unsigned`.

* `bytes + page_size - 1` is evaluated in `size_t` (modulo `2^64`);
* `-page_size` is evaluated in `unsigned` (modulo `2^32`) because unary minus
  does not promote `unsigned`, and only then converted to `size_t`, which
  zero-extends it;
* `&` is the bitwise and of the two 64-bit values. -/
def page_aligned_bytes (bytes page_size : Nat) : Nat :=
  let lhs := (bytes + page_size + (2 ^ SIZE_BITS - 1)) % 2 ^ SIZE_BITS
  let mask := (2 ^ UNSIGNED_BITS - page_size % 2 ^ UNSIGNED_BITS) % 2 ^ UNSIGNED_BITS
  lhs &&& mask

/-- A shared buffer handle as the wrapper sees it: the address `c_type()` and
the size it was allocated with. -/
structure shared_buffer where
  c_type : Nat
  size : Nat
  deriving DecidableEq, Repr

/-- The `std::map<void*, shared_buffer::ptr_t> buffer_map_` member: the nodes
of the map in iteration order. A `std::map` holds at most one node per key
(`StdMap.WF`) and iterates in ascending key order (`StdMap.Ordered`). -/
abbrev StdMap := List (Nat × shared_buffer)

/-- Unique keys, the representation invariant of `std::map`. -/
def StdMap.WF (m : StdMap) : Prop := (m.map Prod.fst).Nodup

/-- The lookup `buffer_map_.find(key)`: the node with that key, `none` for `end()`. -/
def StdMap.find (m : StdMap) (key : Nat) : Option (Nat × shared_buffer) :=
  List.find? (fun node => node.1 == key) m

/-- The call `buffer_map_.erase(it)` for the iterator `find(key)` returned: unlinks that
one node. -/
def StdMap.erase (m : StdMap) (key : Nat) : StdMap :=
  List.eraseP (fun node => node.1 == key) m

/-- Keys in strictly ascending order, the order in which a `std::map` keeps
and iterates its nodes. It implies `StdMap.WF`. -/
def StdMap.Ordered (m : StdMap) : Prop := (m.map Prod.fst).Pairwise (· < ·)

/-- The assignment `buffer_map_[key] = value`: overwrite the node of `key` if
there is one, otherwise insert a node in front of the first node with a
greater key, which keeps the keys in ascending order. -/
def StdMap.assign : StdMap → Nat → shared_buffer → StdMap
  | [], key, value => [(key, value)]
  | node :: rest, key, value =>
    if node.1 == key then (key, value) :: rest
    else if key < node.1 then (key, value) :: node :: rest
    else node :: StdMap.assign rest key value

/-- The member function `AFU::free(volatile void* ptr)` on the `buffer_map_` member: what the call
throws, if anything, and the map after the call. -/
def free (buffer_map_ : StdMap) (ptr : Nat) : Except Thrown Unit × StdMap :=
  match buffer_map_.find ptr with
  | none =>
    (.error (.runtime_error "ERROR: AFU::free() called with pointer without shared buffer."),
      buffer_map_)
  | some _ => (.ok (), buffer_map_.erase ptr)

/-- The read `this->PAGE_SIZES[page_option]`: `none` when the index is outside
the three-element array (undefined behaviour in C++). -/
def PAGE_SIZES_at (page_option : Int) : Option Nat :=
  if page_option < 0 then none else PAGE_SIZES.get? page_option.toNat

/-- The member function
`AFU::alloc(size_t bytes, PageOptions page_option, bool read_only)`.
`allocate` is the vendor's `mpf_shared_buffer::allocate(mpf_, n)`, which gives
the address of the new buffer. The result is the exception thrown, or `none`
for an out-of-bounds read of `PAGE_SIZES`, or the buffer handle together with
the updated `buffer_map_`. -/
def alloc (allocate : Nat → Nat) (buffer_map_ : StdMap) (bytes : Nat) (page_option : Int) :
    Except Thrown (Option (shared_buffer × StdMap)) :=
  if page_option < PAGE_4KB ∨ page_option > PAGE_1GB then
    .error (.runtime_error "ERROR: Invalid page size option.")
  else
    match PAGE_SIZES_at page_option with
    | none => .ok none
    | some page_size =>
      let n := page_aligned_bytes bytes page_size
      let buf_handle : shared_buffer := { c_type := allocate n, size := n }
      .ok (some (buf_handle, buffer_map_.assign buf_handle.c_type buf_handle))

/-- One 64-bit MMIO transaction handed to the vendor runtime. -/
inductive MmioTxn where
  | write64 (mmio_num offset value : Nat)
  | read64 (mmio_num offset : Nat)
  deriving DecidableEq, Repr

/-- The vendor runtime behind an opened handle, as far as `read` and `write`
use it: `fpgaWriteMMIO64(handle, mmio_num, offset, value)` and
`fpgaReadMMIO64(handle, mmio_num, offset, &value)` over a device state `σ`. -/
structure Vendor (σ : Type) where
  fpgaWriteMMIO64 : σ → Nat → Nat → Nat → fpga_result × σ
  fpgaReadMMIO64 : σ → Nat → Nat → fpga_result × Nat × σ

/-- The `fpga_` handle: the device state and the MMIO transactions issued
through it so far. -/
structure Handle (σ : Type) where
  dev : σ
  issued : List MmioTxn

/-- The third argument of `fpgaWriteMMIO64` in `AFU::write`:
`(uint32_t) addr*4`. The cast binds tighter than `*`, so `addr` is truncated
to 32 bits, the product is taken in `uint32_t`, and the result is widened to
the `uint64_t` offset parameter. -/
def write_offset (addr : Nat) : Nat :=
  ((addr % 2 ^ UNSIGNED_BITS) * 4) % 2 ^ UNSIGNED_BITS

/-- The third argument of `fpgaReadMMIO64` in `AFU::read`: `addr*4`, a
`uint64_t` product. -/
def read_offset (addr : Nat) : Nat :=
  (addr * 4) % 2 ^ SIZE_BITS

/-- The member function `AFU::write(uint64_t addr, uint64_t data)`: what it
throws, if anything, and the handle after the call. -/
def write {σ : Type} (V : Vendor σ) (fpga_ : Handle σ) (addr data : Nat) :
    Except Thrown Unit × Handle σ :=
  if addr % 2 = 1 then
    (.error (.runtime_error
      "ERROR: AFU::write requires even addresses due to 64-bit MMIO transfers"), fpga_)
  else
    let r := V.fpgaWriteMMIO64 fpga_.dev 0 (write_offset addr) data
    let fpga' : Handle σ :=
      { dev := r.2, issued := fpga_.issued ++ [.write64 0 (write_offset addr) data] }
    if r.1 ≠ .FPGA_OK then (.error (.status r.1), fpga') else (.ok (), fpga')

/-- The member function `AFU::read(uint64_t addr)`: the value returned or what
it throws, and the handle after the call. -/
def read {σ : Type} (V : Vendor σ) (fpga_ : Handle σ) (addr : Nat) :
    Except Thrown Nat × Handle σ :=
  if addr % 2 = 1 then
    (.error (.runtime_error
      "ERROR AFU::read requires even addresses due to 64-bit MMIO transfers"), fpga_)
  else
    let r := V.fpgaReadMMIO64 fpga_.dev 0 (read_offset addr)
    let fpga' : Handle σ :=
      { dev := r.2.2, issued := fpga_.issued ++ [.read64 0 (read_offset addr)] }
    if r.1 ≠ .FPGA_OK then (.error (.status r.1), fpga') else (.ok r.2.1, fpga')

/-- A register-file model of MMIO space: one 64-bit register per byte offset,
every transaction succeeds, a write stores, a read loads. -/
def registerFile : Vendor (Nat → Nat) where
  fpgaWriteMMIO64 := fun regs _ offset value =>
    (.FPGA_OK, fun o => if o = offset then value else regs o)
  fpgaReadMMIO64 := fun regs _ offset => (.FPGA_OK, regs offset, regs)

/-- The outcome of `handle::open(a, 0)` on one enumerated accelerator token:
a handle, or the `busy` exception. -/
inductive OpenResult where
  | opened (handle : Nat)
  | busy
  deriving DecidableEq, Repr

/-- The loop of `AFU::requestAfu` over the remaining accelerators. `opened`
collects the tokens `handle::open` has been called on. -/
def requestAfu_loop (open_ : Nat → OpenResult) :
    List Nat → List Nat → Except Thrown Nat × List Nat
  | [], opened => (.error (.status .FPGA_BUSY), opened)
  | a :: rest, opened =>
    match open_ a with
    | .opened h => (.ok h, opened ++ [a])
    | .busy => requestAfu_loop open_ rest (opened ++ [a])

/-- The function `AFU::requestAfu(uuid)`, given the tokens `token::enumerate` returned for
the uuid and the behaviour of `handle::open` on each: the handle or the
exception, with the list of tokens that were opened. -/
def requestAfu (open_ : Nat → OpenResult) (accelerators : List Nat) :
    Except Thrown Nat × List Nat :=
  if accelerators.length = 0 then (.error (.status .FPGA_NOT_FOUND), [])
  else requestAfu_loop open_ accelerators []

end AFU

/-! ## Part 2: the SYCL accumulation tutorials -/

namespace Sycl

/-- Conversion of an integer value to `int`: the low 32 bits, read as a
two's-complement number. -/
def wrapInt32 (z : Int) : Int := (z + 2 ^ 31) % 2 ^ 32 - 2 ^ 31

/-- The `int` addition `a + b` of the kernels and of `correct_out += x_h[i]`,
with 32-bit wrap-around. -/
def addInt32 (a b : Int) : Int := wrapInt32 (a + b)

/-- The values an `int` can hold. -/
def isInt32 (z : Int) : Prop := -2 ^ 31 ≤ z ∧ z < 2 ^ 31

instance (z : Int) : Decidable (isInt32 z) := by unfold isInt32; infer_instance

/-- Conversion of an `int` to `size_t` (for use as an index): modulo `2^64`. -/
def toSizeT (z : Int) : Nat := (z % 2 ^ 64).toNat

/-- Conversion of an unsigned integer to a binary floating-point format with a
`p`-bit significand, rounding to nearest, ties to even; the result is the
integer value of the floating-point number (`p = 53` for `double`, `p = 24`
for `float`). -/
def roundToSignificand (p n : Nat) : Nat :=
  if n < 2 ^ p then n
  else
    let e := Nat.log2 n + 1 - p
    let q := n / 2 ^ e
    let r := n % 2 ^ e
    if 2 * r < 2 ^ e then q * 2 ^ e
    else if 2 * r > 2 ^ e then (q + 1) * 2 ^ e
    else if q % 2 = 0 then q * 2 ^ e
    else (q + 1) * 2 ^ e

/-- The expression `ceil(n / 2.0)` for an unsigned integer `n`, as the integer
it is converted back to: `n` becomes a `double`, halving is exact, and `ceil`
gives the least integer at or above the half. -/
def ceil_half (n : Nat) : Nat := (roundToSignificand 53 n + 1) / 2

/-- The expression `ceil(n / float(d))` for an unsigned integer `n` and a power
of two `d`: `n` becomes a `float`, division by a power of two is exact, and
`ceil` gives the least integer at or above the quotient. -/
def ceil_div_float (n d : Nat) : Nat := (roundToSignificand 24 n + (d - 1)) / d

/-- Conversion to `unsigned`. -/
def toUnsigned (n : Nat) : Nat := n % 2 ^ 32

/-- An element read `a[i]` through an accessor or a vector; `none` when `i` is
outside the array. -/
def load (a : List Int) (i : Nat) : Option Int := a[i]?

/-- An element write `a[i] = v`; `none` when `i` is outside the array. -/
def store (a : List Int) (i : Nat) (v : Int) : Option (List Int) :=
  if i < a.length then some (a.set i v) else none

/-- One kernel launch in which the work-items run one after another in the
given order, each on the memory the previous ones left; `none` as soon as one
of them accesses an array out of bounds. -/
def launch {M : Type} (body : Nat → M → Option M) (order : List Nat) (mem : M) : Option M :=
  order.foldlM (fun m i => body i m) mem

/-- A schedule gives, for each iteration of the host loop and each number of
work-items, the order in which the work-items of that launch execute. -/
abbrev Schedule := Nat → Nat → List Nat

/-- Every launch of `n` work-items executes each of the work-items `0 .. n-1`
exactly once. -/
def Schedule.Valid (sched : Schedule) : Prop :=
  ∀ iteration n, List.Perm (sched iteration n) (List.range n)

/-- The schedule that runs the work-items in increasing order of their id. -/
def Schedule.inOrder : Schedule := fun _ n => List.range n

/-- Why a run of the model stops without a result. -/
inductive Fault where
  | out_of_bounds
  | out_of_fuel
  deriving DecidableEq, Repr

/-- The host computation of the reference result:
`correct_out = 0; for (i...) correct_out += x_h[i];`. -/
def correct_out (x_h : List Int) : Int := x_h.foldl addInt32 0

/-- The element `x_h[0]` the result check reads. -/
def front (x_h : List Int) : Except Fault Int :=
  match x_h[0]? with
  | some v => .ok v
  | none => .error .out_of_bounds

/-- The sum of the first `r` elements of `x`, modulo `2^32`. -/
def sumFirst (r : Nat) (x : List Int) : ZMod (2 ^ 32) :=
  ∑ j in Finset.range r, ((x.getD j 0 : Int) : ZMod (2 ^ 32))

/-- The sum of the `r` elements of `x` at the multiples of `s`, modulo `2^32`. -/
def sumStride (s r : Nat) (x : List Int) : ZMod (2 ^ 32) :=
  ∑ j in Finset.range r, ((x.getD (j * s) 0 : Int) : ZMod (2 ^ 32))

/-- The value work-item `j` of the pairwise kernels stores: the sum of its two
inputs, or its single input when `inputs_remaining` is odd and `j` is last. -/
def pairVal (inputs_remaining : Nat) (x_d : List Int) (j : Nat) : Int :=
  if 2 * j + 1 = inputs_remaining then x_d.getD (2 * j) 0
  else addInt32 (x_d.getD (2 * j) 0) (x_d.getD (2 * j + 1) 0)

end Sycl

namespace accum_strategy3_1

open Sycl

/-- The kernel of accum_strategy3_1.cpp for work-item `i`: reads `x_d`, returns
the updated `y_d`.
```
if (2*i + 1 == inputs_remaining)      y_d[i] = x_d[2*i];
else if (2*i + 1 < inputs_remaining)  y_d[i] = x_d[2*i] + x_d[2*i+1];
``` -/
def accum (inputs_remaining : Nat) (x_d : List Int) (i : Nat) (y_d : List Int) :
    Option (List Int) :=
  if 2 * i + 1 = inputs_remaining then do
    let a ← load x_d (2 * i)
    store y_d i a
  else if 2 * i + 1 < inputs_remaining then do
    let a ← load x_d (2 * i)
    let b ← load x_d (2 * i + 1)
    store y_d i (addInt32 a b)
  else some y_d

/-- The host loop
`for (inputs_remaining = vector_size; inputs_remaining > 1; inputs_remaining = ceil(inputs_remaining / 2.0))`
of accum_strategy3_1.cpp: one launch of `num_work_items` work-items per
iteration, then `x_h = y_h`. The buffers wrap all of `x_h` and `y_h`; `y_buf`
is copied back to `y_h` before the assignment, and `x_buf`, accessed read-only,
is not written back. The first argument is the fuel: the number of iterations
the loop may still run. Returns `x_h` after the loop. -/
def host_loop (sched : Schedule) (num_work_items : Nat) :
    Nat → Nat → Nat → List Int → List Int → Except Fault (List Int)
  | 0, _, inputs_remaining, x_h, _ =>
    if inputs_remaining > 1 then .error .out_of_fuel else .ok x_h
  | fuel + 1, iteration, inputs_remaining, x_h, y_h =>
    if inputs_remaining > 1 then
      match launch (accum inputs_remaining x_h) (sched iteration num_work_items) y_h with
      | none => .error .out_of_bounds
      | some y_h' =>
        host_loop sched num_work_items fuel (iteration + 1) (ceil_half inputs_remaining)
          y_h' y_h'
    else .ok x_h

/-- The part of `main` of accum_strategy3_1.cpp after the inputs `x` have been
generated: the value of `x_h[0]` the result check compares with
`correct_out`. The loop gets `vector_size` units of fuel. -/
def main (sched : Schedule) (x : List Int) : Except Fault Int :=
  let vector_size := x.length
  let num_work_items := toUnsigned (ceil_half vector_size)
  let y_h : List Int := List.replicate vector_size 0
  match host_loop sched num_work_items vector_size 0 vector_size x y_h with
  | .error e => .error e
  | .ok x_h => front x_h

end accum_strategy3_1

namespace accum_strategy5

open Sycl

/-- The value of `int stride = pow(2, iteration);`: the power is exact in
`double`; a value beyond `int` converts to `INT_MIN` (the x86 conversion). -/
def stride (iteration : Nat) : Int :=
  if iteration < 31 then 2 ^ iteration else -2 ^ 31

/-- The kernel of accum_strategy5.cpp for work-item `i`, in place on `x_d`.
```
int base = 2*stride*i;
if (2*i + 1 < inputs_remaining)
  x_d[base] = x_d[base] + x_d[base + stride];
```
Signed overflow wraps. Every intermediate product of `2*stride*i` is reduced
modulo a multiple of `2^32` and the conversion to `int` keeps the low 32 bits,
so `base` is the low 32 bits of the exact product; `base + stride` is an `int`
sum, and both are converted to `size_t` to index the accessor. -/
def accum (stride : Int) (inputs_remaining : Nat) (i : Nat) (x_d : List Int) :
    Option (List Int) :=
  let base : Int := wrapInt32 (2 * stride * (i : Int))
  if 2 * i + 1 < inputs_remaining then do
    let a ← load x_d (toSizeT base)
    let b ← load x_d (toSizeT (wrapInt32 (base + stride)))
    store x_d (toSizeT base) (addInt32 a b)
  else some x_d

/-- The host loop of accum_strategy5.cpp,
`for (inputs_remaining = vector_size, iteration = 0; inputs_remaining > 1; inputs_remaining = ceil(inputs_remaining / 2.0), iteration++)`:
one in-place launch per iteration on a buffer that wraps all of `x_h` and is
copied back when it is destroyed at the end of the iteration. The first
argument is the fuel. Returns `x_h` after the loop. -/
def host_loop (sched : Schedule) (num_work_items : Nat) :
    Nat → Nat → Nat → List Int → Except Fault (List Int)
  | 0, _, inputs_remaining, x_h =>
    if inputs_remaining > 1 then .error .out_of_fuel else .ok x_h
  | fuel + 1, iteration, inputs_remaining, x_h =>
    if inputs_remaining > 1 then
      match launch (accum (stride iteration) inputs_remaining)
          (sched iteration num_work_items) x_h with
      | none => .error .out_of_bounds
      | some x_h' =>
        host_loop sched num_work_items fuel (iteration + 1) (ceil_half inputs_remaining) x_h'
    else .ok x_h

/-- The part of `main` of accum_strategy5.cpp after the inputs `x` have been
generated: the value of `x_h[0]` the result check compares with
`correct_out`. The loop gets `vector_size` units of fuel. -/
def main (sched : Schedule) (x : List Int) : Except Fault Int :=
  let vector_size := x.length
  let num_work_items := toUnsigned (ceil_half vector_size)
  match host_loop sched num_work_items vector_size 0 vector_size x with
  | .error e => .error e
  | .ok x_h => front x_h

end accum_strategy5

namespace accum_strategy4_1

open Sycl

/-- The kernel of accum_strategy4_1.cpp for work-item `i`: reads `in`, returns
the updated `out`.
```
if (2*i + 1 == inputs_remaining)      out[i] = in[2*i];
else if (2*i + 1 < inputs_remaining)  out[i] = in[2*i] + in[2*i+1];
``` -/
def accum (inputs_remaining : Nat) (in_d : List Int) (i : Nat) (out_d : List Int) :
    Option (List Int) :=
  if 2 * i + 1 = inputs_remaining then do
    let a ← load in_d (2 * i)
    store out_d i a
  else if 2 * i + 1 < inputs_remaining then do
    let a ← load in_d (2 * i)
    let b ← load in_d (2 * i + 1)
    store out_d i (addInt32 a b)
  else some out_d

/-- The host loop of accum_strategy4_1.cpp on the device buffers `x_d` (all of
`x_h`) and `y_d` (the first `ceil(vector_size/2.0)` elements of `y_h`):
`num_work_items = ceil(inputs_remaining / 2.0)` work-items per launch, input
and output chosen by the parity of `iteration` (an `unsigned`). The first
argument is the fuel. Returns the final value of `iteration` and the two
buffers, which the host reads back through `get_access`. -/
def host_loop (sched : Schedule) :
    Nat → Nat → Nat → List Int → List Int → Except Fault (Nat × List Int × List Int)
  | 0, iteration, inputs_remaining, x_d, y_d =>
    if inputs_remaining > 1 then .error .out_of_fuel else .ok (iteration, x_d, y_d)
  | fuel + 1, iteration, inputs_remaining, x_d, y_d =>
    if inputs_remaining > 1 then
      let num_work_items := toUnsigned (ceil_half inputs_remaining)
      if iteration % 2 = 0 then
        match launch (accum inputs_remaining x_d) (sched iteration num_work_items) y_d with
        | none => .error .out_of_bounds
        | some y_d' =>
          host_loop sched fuel (toUnsigned (iteration + 1)) (ceil_half inputs_remaining) x_d y_d'
      else
        match launch (accum inputs_remaining y_d) (sched iteration num_work_items) x_d with
        | none => .error .out_of_bounds
        | some x_d' =>
          host_loop sched fuel (toUnsigned (iteration + 1)) (ceil_half inputs_remaining) x_d' y_d
    else .ok (iteration, x_d, y_d)

/-- The part of `main` of accum_strategy4_1.cpp after the inputs `x` have been
generated: the value of `actual_out`, read from `x_h[0]` when `iteration` is
even and from `y_h[0]` when it is odd. -/
def main (sched : Schedule) (x : List Int) : Except Fault Int :=
  let vector_size := x.length
  let y_d : List Int := List.replicate (ceil_half vector_size) 0
  match host_loop sched vector_size 0 vector_size x y_d with
  | .error e => .error e
  | .ok (iteration, x_h, y_h) => if iteration % 2 = 0 then front x_h else front y_h

end accum_strategy4_1

namespace accum_strategy6_2

open Sycl

/-- The constant `size_t work_items_per_group = 32;`. -/
def work_items_per_group : Nat := 32

/-- The constant `size_t inputs_per_group = work_items_per_group * 2;`. -/
def inputs_per_group : Nat := work_items_per_group * 2

/-- The kernel of accum_strategy6_2.cpp up to its first barrier, for the
work-item `local_id` of group `group_id`, on the group's local array
`x_local`.
```
x_local[local_id] = 0;
if (2*global_id + 1 == global_inputs_remaining)
  x_local[local_id] = x_d[2*global_id];
else if (2*global_id + 1 < global_inputs_remaining)
  x_local[local_id] = x_d[2*global_id] + x_d[2*global_id + 1];
``` -/
def accum_load (global_inputs_remaining : Nat) (x_d : List Int) (group_id local_id : Nat)
    (x_local : List Int) : Option (List Int) := do
  let global_id := group_id * work_items_per_group + local_id
  let x_local ← store x_local local_id 0
  if 2 * global_id + 1 = global_inputs_remaining then do
    let a ← load x_d (2 * global_id)
    store x_local local_id a
  else if 2 * global_id + 1 < global_inputs_remaining then do
    let a ← load x_d (2 * global_id)
    let b ← load x_d (2 * global_id + 1)
    store x_local local_id (addInt32 a b)
  else some x_local

/-- One iteration of the in-group loop of the kernel, between two barriers,
for the work-item `local_id`.
```
int base = 2*stride*local_id;
if (2*local_id + 1 < local_inputs_remaining)
  x_local[base] = x_local[base] + x_local[base + stride];
```
`2*stride*local_id` is a `size_t` product converted to `int`; `base + stride`
is a `size_t` sum. -/
def accum_step (stride local_inputs_remaining local_id : Nat) (x_local : List Int) :
    Option (List Int) :=
  let base : Int := wrapInt32 (((2 * stride * local_id) % 2 ^ 64 : Nat) : Int)
  if 2 * local_id + 1 < local_inputs_remaining then do
    let a ← load x_local (toSizeT base)
    let b ← load x_local ((toSizeT base + stride) % 2 ^ 64)
    store x_local (toSizeT base) (addInt32 a b)
  else some x_local

/-- The in-group loop
`for (local_inputs_remaining = inputs_per_group; local_inputs_remaining > 1; local_inputs_remaining = ceil(local_inputs_remaining/2.0))`
with `stride *= 2` and a barrier at the end of each iteration. `order phase`
is the order in which the work-items of the group execute the code between
barrier `phase` and the next one. The first argument is the fuel: the number
of iterations the loop may still run. -/
def group_loop (order : Nat → List Nat) :
    Nat → Nat → Nat → Nat → List Int → Except Fault (List Int)
  | 0, _, _, local_inputs_remaining, x_local =>
    if local_inputs_remaining > 1 then .error .out_of_fuel else .ok x_local
  | fuel + 1, phase, stride, local_inputs_remaining, x_local =>
    if local_inputs_remaining > 1 then
      match launch (accum_step stride local_inputs_remaining) (order phase) x_local with
      | none => .error .out_of_bounds
      | some x_local' =>
        group_loop order fuel (phase + 1) (stride * 2 % 2 ^ 64)
          (ceil_half local_inputs_remaining) x_local'
    else .ok x_local

/-- The kernel of accum_strategy6_2.cpp for one work-group: the load phase on a
fresh local array of `work_items_per_group` elements (every work-item stores
to its own element before any element is read, so the initial contents do not
matter), the in-group loop with `inputs_per_group` units of fuel, and the
final `if (local_id == 0) y_d[group_id] = x_local[0];`. Returns the updated
`y_d`. -/
def accum_group (order : Nat → List Nat) (global_inputs_remaining : Nat) (x_d : List Int)
    (group_id : Nat) (y_d : List Int) : Except Fault (List Int) :=
  let x_local : List Int := List.replicate work_items_per_group 0
  match launch (accum_load global_inputs_remaining x_d group_id) (order 0) x_local with
  | none => .error .out_of_bounds
  | some x_local =>
    match group_loop order inputs_per_group 1 1 inputs_per_group x_local with
    | .error e => .error e
    | .ok x_local =>
      match load x_local 0 with
      | none => .error .out_of_bounds
      | some v =>
        match store y_d group_id v with
        | none => .error .out_of_bounds
        | some y_d' => .ok y_d'

/-- A schedule of the nd-range launches: for each iteration of the host loop the
order in which the work-groups execute, and for each group and barrier phase
the order in which its work-items execute. -/
structure GroupSchedule where
  groups : Nat → Nat → List Nat
  items : Nat → Nat → Nat → List Nat

/-- Every group of a launch executes once, and in every phase every work-item
of the group executes once. -/
def GroupSchedule.Valid (sched : GroupSchedule) : Prop :=
  (∀ iteration n, List.Perm (sched.groups iteration n) (List.range n)) ∧
  (∀ iteration group phase,
    List.Perm (sched.items iteration group phase) (List.range work_items_per_group))

/-- The schedule that runs groups and work-items in increasing order of id. -/
def GroupSchedule.inOrder : GroupSchedule where
  groups := fun _ n => List.range n
  items := fun _ _ _ => List.range work_items_per_group

/-- One nd-range launch: the work-groups run one after another in the given
order. -/
def launch_groups (sched : GroupSchedule) (iteration num_groups global_inputs_remaining : Nat)
    (x_d y_d : List Int) : Except Fault (List Int) :=
  (sched.groups iteration num_groups).foldlM
    (fun y g => accum_group (sched.items iteration g) global_inputs_remaining x_d g y) y_d

/-- The host loop `while (global_inputs_remaining > 1)` of accum_strategy6_2.cpp.
Each iteration wraps the first `global_inputs_remaining` elements of `x_h` and
the first `num_groups` elements of `y_h` in buffers, launches the kernel, and
swaps `x_h` and `y_h`. Returns `x_h` after the loop. -/
def host_loop (sched : GroupSchedule) :
    Nat → Nat → Nat → List Int → List Int → Except Fault (List Int)
  | 0, _, global_inputs_remaining, x_h, _ =>
    if global_inputs_remaining > 1 then .error .out_of_fuel else .ok x_h
  | fuel + 1, iteration, global_inputs_remaining, x_h, y_h =>
    if global_inputs_remaining > 1 then
      let num_groups := ceil_div_float global_inputs_remaining inputs_per_group
      let x_d := x_h.take global_inputs_remaining
      let y_d := y_h.take num_groups
      match launch_groups sched iteration num_groups global_inputs_remaining x_d y_d with
      | .error e => .error e
      | .ok y_d' =>
        host_loop sched fuel (iteration + 1) num_groups (y_d' ++ y_h.drop num_groups) x_h
    else .ok x_h

/-- The part of `main` of accum_strategy6_2.cpp after the inputs `x` have been
generated: the value of `x_h[0]` the result check compares with
`correct_out`. The loop gets `vector_size` units of fuel. -/
def main (sched : GroupSchedule) (x : List Int) : Except Fault Int :=
  let vector_size := x.length
  let y_h : List Int := List.replicate (ceil_div_float vector_size inputs_per_group) 0
  match host_loop sched vector_size 0 vector_size x y_h with
  | .error e => .error e
  | .ok x_h => front x_h

end accum_strategy6_2

/-! ## Part 2b: command-line handling, the bad accumulation strategies, the
copy functions, the matrix class and integer SAXPY -/

namespace Sycl

/-- The C library predicate `isspace` in the C locale: space and the control
characters 9 to 13. -/
def isspace (c : Char) : Bool := c.toNat = 32 || (9 ≤ c.toNat && c.toNat ≤ 13)

/-- The decimal value of the longest prefix of digits, on top of `acc`. -/
def atoi_digits : List Char → Nat → Nat
  | [], acc => acc
  | c :: cs, acc => if c.isDigit then atoi_digits cs (acc * 10 + (c.toNat - 48)) else acc

/-- The C library function `atoi` as glibc provides it, `(int) strtol(s, 0, 10)`:
leading white space is skipped, an optional sign is read, the digits that
follow give the value (0 when there are none), the value is clamped to `long`
and converted to `int`. -/
def atoi (s : String) : Int :=
  match s.toList.dropWhile isspace with
  | [] => 0
  | c :: cs =>
    if c.toNat = 45 then wrapInt32 (max (-(atoi_digits cs 0 : Int)) (-2 ^ 63))
    else if c.toNat = 43 then wrapInt32 (min (atoi_digits cs 0 : Int) (2 ^ 63 - 1))
    else wrapInt32 (min (atoi_digits (c :: cs) 0 : Int) (2 ^ 63 - 1))

/-- How the start of `main` ends: with `print_usage(argv[0]); return 1;`, or by
going on to allocate the vectors with `vector_size` elements and run the
kernels. -/
inductive Startup where
  | usage_return_1 (name : Option String)
  | run (vector_size : Nat)
  deriving DecidableEq, Repr

end Sycl

namespace accum_strategy1_bad

open Sycl

/-- The start of `main` of accum_strategy1_bad.cpp, where `vector_size` is an
`int`:
```
if (argc != 2) { print_usage(argv[0]); return 1; }
int vector_size;
vector_size = atoi(argv[1]);
if (vector_size <= 0) { print_usage(argv[0]); return 1; }
```
`argv` holds the program name and the arguments, so `argc` is its length. -/
def startup (atoi : String → Int) (argv : List String) : Startup :=
  if argv.length ≠ 2 then .usage_return_1 argv[0]?
  else
    let vector_size : Int := atoi (argv.getD 1 "")
    if vector_size ≤ 0 then .usage_return_1 argv[0]?
    else .run (toSizeT vector_size)

/-- The body of the loop of the kernel of accum_strategy1_bad.cpp for
work-item `i`:
```
if (2*i + 1 == inputs_remaining)      x_d[i] = x_d[2*i];
else if (2*i + 1 < inputs_remaining)  x_d[i] = x_d[2*i] + x_d[2*i+1];
``` -/
def accum_body (inputs_remaining : Nat) (i : Nat) (x_d : List Int) : Option (List Int) :=
  if 2 * i + 1 = inputs_remaining then do
    let a ← load x_d (2 * i)
    store x_d i a
  else if 2 * i + 1 < inputs_remaining then do
    let a ← load x_d (2 * i)
    let b ← load x_d (2 * i + 1)
    store x_d i (addInt32 a b)
  else some x_d

/-- The loop inside the kernel of accum_strategy1_bad.cpp, run by work-item `i`
from start to end without any other work-item in between:
`for (inputs_remaining = vector_size; inputs_remaining > 1; inputs_remaining = ceil(inputs_remaining / 2.0))`.
The first argument is the fuel. -/
def accum_loop (i : Nat) : Nat → Nat → List Int → Except Fault (List Int)
  | 0, inputs_remaining, x_d =>
    if inputs_remaining > 1 then .error .out_of_fuel else .ok x_d
  | fuel + 1, inputs_remaining, x_d =>
    if inputs_remaining > 1 then
      match accum_body inputs_remaining i x_d with
      | none => .error .out_of_bounds
      | some x_d' => accum_loop i fuel (ceil_half inputs_remaining) x_d'
    else .ok x_d

/-- The kernel of accum_strategy1_bad.cpp for work-item `i`, with
`vector_size` units of fuel for its loop. -/
def accum (vector_size : Nat) (i : Nat) (x_d : List Int) : Except Fault (List Int) :=
  accum_loop i vector_size vector_size x_d

/-- The part of `main` of accum_strategy1_bad.cpp after the inputs `x` have
been generated: one launch of `num_work_items` work-items, each running its
whole loop before the next one in `sched 0 num_work_items` starts; the result
is the `x_h[0]` the check compares with `correct_out`. -/
def main (sched : Schedule) (x : List Int) : Except Fault Int :=
  let vector_size := x.length
  let num_work_items := toUnsigned (ceil_half vector_size)
  match (sched 0 num_work_items).foldlM (fun x_d i => accum vector_size i x_d) x with
  | .error e => .error e
  | .ok x_h => front x_h

end accum_strategy1_bad

namespace accum_strategy2_bad

open Sycl

/-- The start of `main` of accum_strategy2_bad.cpp, where `vector_size` is a
`size_t` (the same text opens every other accum_strategy program):
```
if (argc != 2) { print_usage(argv[0]); return 1; }
size_t vector_size;
vector_size = atoi(argv[1]);
if (vector_size <= 0) { print_usage(argv[0]); return 1; }
``` -/
def startup (atoi : String → Int) (argv : List String) : Startup :=
  if argv.length ≠ 2 then .usage_return_1 argv[0]?
  else
    let vector_size : Nat := toSizeT (atoi (argv.getD 1 ""))
    if vector_size ≤ 0 then .usage_return_1 argv[0]?
    else .run vector_size

/-- The kernel of accum_strategy2_bad.cpp for work-item `i`, in place on `x_d`:
```
if (2*i + 1 == inputs_remaining)      x_d[i] = x_d[2*i];
else if (2*i + 1 < inputs_remaining)  x_d[i] = x_d[2*i] + x_d[2*i+1];
``` -/
def accum (inputs_remaining : Nat) (i : Nat) (x_d : List Int) : Option (List Int) :=
  if 2 * i + 1 = inputs_remaining then do
    let a ← load x_d (2 * i)
    store x_d i a
  else if 2 * i + 1 < inputs_remaining then do
    let a ← load x_d (2 * i)
    let b ← load x_d (2 * i + 1)
    store x_d i (addInt32 a b)
  else some x_d

/-- The host loop of accum_strategy2_bad.cpp: each iteration wraps the first
`inputs_remaining` elements of `x_h` in a buffer, launches `num_work_items`
work-items on it, and copies the buffer back when it is destroyed. The first
argument is the fuel. Returns `x_h` after the loop. -/
def host_loop (sched : Schedule) (num_work_items : Nat) :
    Nat → Nat → Nat → List Int → Except Fault (List Int)
  | 0, _, inputs_remaining, x_h =>
    if inputs_remaining > 1 then .error .out_of_fuel else .ok x_h
  | fuel + 1, iteration, inputs_remaining, x_h =>
    if inputs_remaining > 1 then
      match launch (accum inputs_remaining) (sched iteration num_work_items)
          (x_h.take inputs_remaining) with
      | none => .error .out_of_bounds
      | some x_d' =>
        host_loop sched num_work_items fuel (iteration + 1) (ceil_half inputs_remaining)
          (x_d' ++ x_h.drop inputs_remaining)
    else .ok x_h

/-- The part of `main` of accum_strategy2_bad.cpp after the inputs `x` have
been generated: the value of `x_h[0]` the result check compares with
`correct_out`. The loop gets `vector_size` units of fuel. -/
def main (sched : Schedule) (x : List Int) : Except Fault Int :=
  let vector_size := x.length
  let num_work_items := toUnsigned (ceil_half vector_size)
  match host_loop sched num_work_items vector_size 0 vector_size x with
  | .error e => .error e
  | .ok x_h => front x_h

end accum_strategy2_bad

namespace accum_strategy6_1_bad

open Sycl

/-- The constant `size_t work_items_per_group = 32;`, the size of `x_local`. -/
def work_items_per_group : Nat := 32

/-- The constant `size_t inputs_per_group = work_items_per_group * 2;`. -/
def inputs_per_group : Nat := work_items_per_group * 2

/-- One iteration of the in-group loop of the kernel of
accum_strategy6_1_bad.cpp, between two barriers, for the work-item `local_id`.
```
int base = 2*stride*local_id;
if (2*local_id + 1 < local_inputs_remaining)
  x_local[base] = x_local[base] + x_local[base + stride];
``` -/
def accum_step (stride local_inputs_remaining local_id : Nat) (x_local : List Int) :
    Option (List Int) :=
  let base : Int := wrapInt32 (((2 * stride * local_id) % 2 ^ 64 : Nat) : Int)
  if 2 * local_id + 1 < local_inputs_remaining then do
    let a ← load x_local (toSizeT base)
    let b ← load x_local ((toSizeT base + stride) % 2 ^ 64)
    store x_local (toSizeT base) (addInt32 a b)
  else some x_local

end accum_strategy6_1_bad

namespace usm_vs_buffers1

open Sycl

/-- The start of `main` of usm_vs_buffers1.cpp (usm_vs_buffers2.cpp has the same
text), where `vector_size` is a `size_t`. -/
def startup (atoi : String → Int) (argv : List String) : Startup :=
  if argv.length ≠ 2 then .usage_return_1 argv[0]?
  else
    let vector_size : Nat := toSizeT (atoi (argv.getD 1 ""))
    if vector_size ≤ 0 then .usage_return_1 argv[0]?
    else .run vector_size

/-- What a copy function ends with when it does not return normally: the
`std::runtime_error` it throws, or an out-of-bounds access in its kernel. -/
inductive Raised where
  | runtime_error (what : String)
  | out_of_bounds
  deriving DecidableEq, Repr

/-- The kernel of the copy functions for work-item `i`: `y_d[i] = x_d[i];`. -/
def copy_kernel (x_d : List Int) (i : Nat) (y_d : List Int) : Option (List Int) := do
  let v ← load x_d i
  store y_d i v

/-- The function `copy_buffer(queue, x_h, y_h)`: what it raises, if anything,
and `x_h` and `y_h` after the call. The buffers wrap all of `x_h` and `y_h`;
`order` is the order in which the `x_h.size()` work-items run; `y_buf` is
copied back to `y_h` when the buffers are destroyed on return. -/
def copy_buffer (order : List Nat) (x_h y_h : List Int) :
    Except Raised Unit × List Int × List Int :=
  if x_h.length ≠ y_h.length then
    (.error (.runtime_error "Vectors have different sizes"), x_h, y_h)
  else
    match launch (copy_kernel x_h) order y_h with
    | none => (.error .out_of_bounds, x_h, y_h)
    | some y_d => (.ok (), x_h, y_d)

/-- The call `queue.memcpy(dst, src, sizeof(int) * count)`: the first `count`
elements of `dst` become those of `src`. -/
def memcpy (dst src : List Int) (count : Nat) : List Int :=
  src.take count ++ dst.drop count

/-- The call `malloc_device<int>(count, queue)`: `count` elements of device
memory with the arbitrary contents `garbage`. -/
def malloc_device (garbage : Nat → Int) (count : Nat) : List Int :=
  (List.range count).map garbage

/-- The three commands `copy_usm_explicit` submits to the queue: the copy of
`x_h` to the device (`queue.memcpy(x_d, x_h.data(), ...)`), the kernel
(`queue.submit`), and the copy of `y_d` back to the host
(`queue.memcpy(y_h.data(), y_d, ...)`). -/
inductive Command where
  | copy_to_device
  | kernel
  | copy_to_host
  deriving DecidableEq, Repr

/-- The order in which `copy_usm_explicit` submits its commands. -/
def submission_order : List Command := [.copy_to_device, .kernel, .copy_to_host]

/-- The memory the commands of `copy_usm_explicit` work on: the two device
allocations and the host vector `y_h`. -/
structure UsmState where
  x_d : List Int
  y_d : List Int
  y_h : List Int
  deriving DecidableEq, Repr

/-- The effect of one command of `copy_usm_explicit`; `order` is the order of
the `x_h.size()` work-items of the kernel. -/
def run_command (order : List Nat) (x_h : List Int) : Command → UsmState → Option UsmState
  | .copy_to_device, s => some { s with x_d := memcpy s.x_d x_h x_h.length }
  | .kernel, s =>
    match launch (copy_kernel s.x_d) order s.y_d with
    | none => none
    | some y_d => some { s with y_d := y_d }
  | .copy_to_host, s => some { s with y_h := memcpy s.y_h s.y_d s.y_h.length }

/-- The function `copy_usm_explicit(queue, x_h, y_h)`: what it raises, if
anything, and `x_h` and `y_h` after the call. The queue is the default,
out-of-order one, the events of the three commands are discarded and no
command waits for another, so the commands take effect in some order
`commands`, a permutation of `submission_order`, before the one
`queue.wait_and_throw()` returns. `garbage_x` and `garbage_y` are the initial
contents of the two device allocations. -/
def copy_usm_explicit (garbage_x garbage_y : Nat → Int) (commands : List Command)
    (order : List Nat) (x_h y_h : List Int) : Except Raised Unit × List Int × List Int :=
  if x_h.length ≠ y_h.length then
    (.error (.runtime_error "Vectors have different sizes"), x_h, y_h)
  else
    let s : UsmState :=
      { x_d := malloc_device garbage_x x_h.length,
        y_d := malloc_device garbage_y y_h.length,
        y_h := y_h }
    match commands.foldlM (fun s c => run_command order x_h c s) s with
    | none => (.error .out_of_bounds, x_h, y_h)
    | some s => (.ok (), x_h, s.y_h)

end usm_vs_buffers1

namespace matrix_add_dynamic3

open Sycl

/-- The class `Matrix`: the 1D array `matrix` is identified with the offsets
`0 .. num_rows*num_cols - 1` of its elements, so only the two `size_t` members
are kept. -/
structure Matrix where
  num_rows : Nat
  num_cols : Nat
  deriving DecidableEq, Repr

/-- The member function `int* Matrix::operator[](int i)`: the
`std::runtime_error` thrown, or the returned pointer `matrix + i*num_cols` as
an offset in elements from `matrix`. In `i >= num_rows` and in `i*num_cols`
the `int` is converted to `size_t`. -/
def Matrix.row (m : Matrix) (i : Int) : Except String Nat :=
  if toSizeT i ≥ m.num_rows then .error "Invalid row accessed"
  else .ok ((toSizeT i * m.num_cols) % 2 ^ 64)

/-- The expression `m[i][j]`: the offset from `matrix` of the element it
denotes, `operator[](i)` followed by the built-in `[j]` on the pointer. -/
def Matrix.elem (m : Matrix) (i : Int) (j : Nat) : Except String Nat :=
  match m.row i with
  | .error e => .error e
  | .ok p => .ok (p + j)

end matrix_add_dynamic3

namespace saxpy_int

open Sycl

/-- The constant `const int VECTOR_SIZE = 1000;`. -/
def VECTOR_SIZE : Nat := 1000

/-- Conversion of a non-negative `int` to `float`. A `float` whose value is a
non-negative integer is represented by that integer. -/
def toFloat (n : Nat) : Nat := roundToSignificand 24 n

/-- Single-precision product of two integer-valued floats: the exact product
rounded to a 24-bit significand. -/
def fmul (a b : Nat) : Nat := roundToSignificand 24 (a * b)

/-- Single-precision sum of two integer-valued floats: the exact sum rounded
to a 24-bit significand. -/
def fadd (a b : Nat) : Nat := roundToSignificand 24 (a + b)

/-- The expression `a * x + y` on floats. A compiler may contract it into one
fused multiply-add, which rounds once (`contract = true`), or keep the two
operations, each of which rounds. -/
def axpy (contract : Bool) (a x y : Nat) : Nat :=
  if contract then roundToSignificand 24 (a * x + y) else fadd (fmul a x) y

/-- The kernel of saxpy_int.cpp for work-item `i`:
`z_d[i] = a * x_d[i] + y_d[i];`. -/
def saxpy (contract : Bool) (a : Nat) (x_d y_d : List Nat) (i : Nat) (z_d : List Nat) :
    Option (List Nat) :=
  match x_d[i]?, y_d[i]? with
  | some x, some y => if i < z_d.length then some (z_d.set i (axpy contract a x y)) else none
  | _, _ => none

/-- The host loop that fills `correct_out`:
`correct_out[i] = a * x_h[i] + y_h[i];`. -/
def correct_out (contract : Bool) (a : Nat) (x_h y_h : List Nat) : List Nat :=
  List.zipWith (fun x y => axpy contract a x y) x_h y_h

/-- The program saxpy_int.cpp for the random draws `a`, `xs`, `ys` (integers
from `dist(0, 100)`, converted to `float`): whether the check
`z_h == correct_out` passes, or `none` when the kernel accesses a buffer out
of bounds. `order` is the order of the `x_h.size()` work-items;
`contract_host` and `contract_device` say how the host and the device compiler
evaluate `a * x + y`. -/
def main (contract_host contract_device : Bool) (order : List Nat) (a : Nat)
    (xs ys : List Nat) : Option Bool :=
  let a := toFloat a
  let x_h := xs.map toFloat
  let y_h := ys.map toFloat
  let z_h : List Nat := List.replicate VECTOR_SIZE 0
  let correct := correct_out contract_host a x_h y_h
  match launch (saxpy contract_device a x_h y_h) order z_h with
  | none => none
  | some z_h => some (decide (z_h = correct))

end saxpy_int

/-! ## Part 3: lemmas and theorems about the AFU wrapper -/

namespace AFU

/-! ### Helper lemmas on the map model -/

theorem StdMap.find_eq_none_iff (m : StdMap) (key : Nat) :
    m.find key = none ↔ key ∉ m.map Prod.fst := by
  unfold StdMap.find
  rw [List.find?_eq_none]
  simp only [List.mem_map, not_exists, not_and, beq_iff_eq, Bool.not_eq_true]

theorem StdMap.erase_eq_filter (m : StdMap) (key : Nat) (h : m.WF) :
    m.erase key = m.filter (fun node => node.1 != key) := by
  induction m with
  | nil => rfl
  | cons node rest ih =>
    unfold StdMap.WF at h
    rw [List.map_cons, List.nodup_cons] at h
    unfold StdMap.erase at ih ⊢
    by_cases hk : node.1 = key
    · have hrest : List.filter (fun node => node.1 != key) rest = rest := by
        rw [List.filter_eq_self]
        intro a ha
        have : a.1 ≠ key := by
          intro hak
          apply h.1
          rw [hk, ← hak]
          exact List.mem_map_of_mem _ ha
        simpa using this
      simp [List.eraseP_cons, List.filter_cons, hk, hrest]
    · simp [List.eraseP_cons, List.filter_cons, hk, ih h.2]

theorem StdMap.mem_assign_keys (m : StdMap) (key : Nat) (value : shared_buffer) (k : Nat) :
    k ∈ (m.assign key value).map Prod.fst ↔ k = key ∨ k ∈ m.map Prod.fst := by
  induction m with
  | nil => simp [StdMap.assign]
  | cons node rest ih =>
    unfold StdMap.assign
    by_cases hk : node.1 = key
    · simp [hk]
    · by_cases hlt : key < node.1
      · simp [hk, hlt]
      · simp only [beq_iff_eq, hk, if_false, hlt, List.map_cons, List.mem_cons, ih]
        constructor
        · rintro (h | h | h)
          · exact Or.inr (Or.inl h)
          · exact Or.inl h
          · exact Or.inr (Or.inr h)
        · rintro (h | h | h)
          · exact Or.inr (Or.inl h)
          · exact Or.inl h
          · exact Or.inr (Or.inr h)

theorem StdMap.WF_of_Ordered (m : StdMap) (h : m.Ordered) : m.WF := by
  unfold StdMap.Ordered at h
  unfold StdMap.WF
  exact h.imp (fun hlt => Nat.ne_of_lt hlt)

/-- The assignment `buffer_map_[key] = value` keeps the keys in ascending
order. -/
theorem StdMap.assign_Ordered (m : StdMap) (key : Nat) (value : shared_buffer)
    (h : m.Ordered) : (m.assign key value).Ordered := by
  induction m with
  | nil => simp [StdMap.assign, StdMap.Ordered]
  | cons node rest ih =>
    unfold StdMap.Ordered at h ih ⊢
    rw [List.map_cons, List.pairwise_cons] at h
    unfold StdMap.assign
    by_cases hk : node.1 = key
    · have hb : (node.1 == key) = true := by simpa using hk
      rw [if_pos hb, List.map_cons, List.pairwise_cons]
      exact ⟨fun k hk' => hk ▸ h.1 k hk', h.2⟩
    · have hb : ¬ (node.1 == key) = true := by simpa using hk
      rw [if_neg hb]
      by_cases hlt : key < node.1
      · rw [if_pos hlt, List.map_cons, List.map_cons, List.pairwise_cons, List.pairwise_cons]
        refine ⟨?_, h.1, h.2⟩
        intro k hk'
        rcases List.mem_cons.mp hk' with rfl | hk'
        · exact hlt
        · exact Nat.lt_trans hlt (h.1 k hk')
      · rw [if_neg hlt, List.map_cons, List.pairwise_cons]
        refine ⟨?_, ih h.2⟩
        intro k hk'
        rcases (StdMap.mem_assign_keys rest key value k).mp hk' with rfl | hk'
        · omega
        · exact h.1 k hk'

theorem StdMap.assign_WF (m : StdMap) (key : Nat) (value : shared_buffer) (h : m.Ordered) :
    (m.assign key value).WF :=
  StdMap.WF_of_Ordered _ (StdMap.assign_Ordered m key value h)

/-- After `buffer_map_[key] = value` the lookup of `key` finds the new node. -/
theorem StdMap.find_assign (m : StdMap) (key : Nat) (value : shared_buffer) :
    (m.assign key value).find key = some (key, value) := by
  induction m with
  | nil => simp [StdMap.assign, StdMap.find]
  | cons node rest ih =>
    unfold StdMap.assign
    by_cases hk : node.1 = key
    · simp [hk, StdMap.find]
    · by_cases hlt : key < node.1
      · simp [hk, hlt, StdMap.find]
      · unfold StdMap.find at ih
        simp [hk, hlt, StdMap.find, ih]

theorem free_Ordered (m : StdMap) (ptr : Nat) (h : m.Ordered) : (free m ptr).2.Ordered := by
  unfold free
  split
  · exact h
  · unfold StdMap.Ordered at h ⊢
    exact h.sublist ((List.eraseP_sublist m).map Prod.fst)

theorem free_WF (m : StdMap) (ptr : Nat) (h : m.WF) : (free m ptr).2.WF := by
  unfold free
  split
  · exact h
  · unfold StdMap.WF at h ⊢
    exact h.sublist ((List.eraseP_sublist m).map Prod.fst)

theorem requestAfu_loop_cases (open_ : Nat → OpenResult) (l opened : List Nat) :
    ((∀ a ∈ l, open_ a = .busy) ∧
        requestAfu_loop open_ l opened = (.error (.status .FPGA_BUSY), opened ++ l)) ∨
    (∃ pre a post h, l = pre ++ a :: post ∧ (∀ b ∈ pre, open_ b = .busy) ∧
        open_ a = .opened h ∧
        requestAfu_loop open_ l opened = (.ok h, opened ++ pre ++ [a])) := by
  induction l generalizing opened with
  | nil => left; simp [requestAfu_loop]
  | cons a rest ih =>
    cases ha : open_ a with
    | opened h =>
      right
      exact ⟨[], a, rest, h, rfl, by simp, ha, by simp [requestAfu_loop, ha]⟩
    | busy =>
      rcases ih (opened ++ [a]) with ⟨hall, hres⟩ | ⟨pre, b, post, h, hl, hpre, hb, hres⟩
      · left
        refine ⟨?_, ?_⟩
        · intro x hx
          rcases List.mem_cons.mp hx with rfl | hx
          · exact ha
          · exact hall x hx
        · simp [requestAfu_loop, ha, hres]
      · right
        refine ⟨a :: pre, b, post, h, by simp [hl], ?_, hb, ?_⟩
        · intro x hx
          rcases List.mem_cons.mp hx with rfl | hx
          · exact ha
          · exact hpre x hx
        · simp [requestAfu_loop, ha, hres]

theorem requestAfu_loop_first (open_ : Nat → OpenResult) (pre : List Nat) (a : Nat)
    (post : List Nat) (h : Nat) (opened : List Nat)
    (hpre : ∀ b ∈ pre, open_ b = .busy) (ha : open_ a = .opened h) :
    requestAfu_loop open_ (pre ++ a :: post) opened = (.ok h, opened ++ pre ++ [a]) := by
  induction pre generalizing opened with
  | nil => simp [requestAfu_loop, ha]
  | cons b rest ih =>
    have hb : open_ b = .busy := hpre b (List.mem_cons_self _ _)
    have := ih (opened ++ [b]) (fun x hx => hpre x (List.mem_cons_of_mem _ hx))
    simp [requestAfu_loop, hb, this]

/-! ### The claims about `AFU` -/

/-- C1: at `bytes = 2^32` with the 4 KiB page size the expression of `AFU::alloc`
yields `0`: a multiple of the page size, but below `bytes`, so not the next
multiple of `page_size` at or above `bytes`; `alloc` asks the vendor runtime
for a buffer of `0` bytes. -/
theorem alloc_page_aligned_bytes_truncated :
    PAGE_SIZES_at PAGE_4KB = some 4096 ∧
    page_aligned_bytes 4294967296 4096 = 0 ∧
    ¬ (4294967296 ≤ page_aligned_bytes 4294967296 4096) ∧
    alloc (fun _ => 65536) [] 4294967296 PAGE_4KB
      = .ok (some (⟨65536, 0⟩, [(65536, ⟨65536, 0⟩)])) := by
  refine ⟨by decide, by decide, by decide, rfl⟩

/-- C2: at the even word address `2^30`, `AFU::write` passes byte offset `0`
while `AFU::read` passes byte offset `2^32`; over the register file that is
zero everywhere, `write(2^30, 1)` followed by `read(2^30)` returns `0`, not `1`. -/
theorem write_read_offsets_differ :
    (1073741824 % 2 = 0) ∧
    write_offset 1073741824 = 0 ∧ read_offset 1073741824 = 4294967296 ∧
    (write registerFile ⟨fun _ => 0, []⟩ 1073741824 1).1 = .ok () ∧
    (read registerFile (write registerFile ⟨fun _ => 0, []⟩ 1073741824 1).2 1073741824).1
      = .ok 0 := by
  refine ⟨by decide, by decide, by decide, rfl, rfl⟩

/-- C3: `AFU::write` and `AFU::read` throw a `runtime_error` exactly when `addr`
is odd, and then leave the handle as it was (no MMIO transaction); for an
even `addr` they issue exactly one 64-bit transaction, throw the vendor status
iff it is not `FPGA_OK`, and `read` otherwise returns the value the
transaction produced. -/
theorem write_read_throw_iff_odd {σ : Type} (V : Vendor σ) (fpga_ : Handle σ) (addr data : Nat) :
    ((∃ what, (write V fpga_ addr data).1 = .error (.runtime_error what)) ↔ addr % 2 = 1) ∧
    ((∃ what, (read V fpga_ addr).1 = .error (.runtime_error what)) ↔ addr % 2 = 1) ∧
    (addr % 2 = 1 →
      (write V fpga_ addr data).2 = fpga_ ∧ (read V fpga_ addr).2 = fpga_) ∧
    (addr % 2 = 0 →
      (write V fpga_ addr data).2.issued
          = fpga_.issued ++ [.write64 0 (write_offset addr) data] ∧
      (write V fpga_ addr data).2.dev
          = (V.fpgaWriteMMIO64 fpga_.dev 0 (write_offset addr) data).2 ∧
      (write V fpga_ addr data).1
          = (if (V.fpgaWriteMMIO64 fpga_.dev 0 (write_offset addr) data).1 = .FPGA_OK
              then .ok ()
              else .error (.status (V.fpgaWriteMMIO64 fpga_.dev 0 (write_offset addr) data).1)) ∧
      (read V fpga_ addr).2.issued = fpga_.issued ++ [.read64 0 (read_offset addr)] ∧
      (read V fpga_ addr).2.dev = (V.fpgaReadMMIO64 fpga_.dev 0 (read_offset addr)).2.2 ∧
      (read V fpga_ addr).1
          = (if (V.fpgaReadMMIO64 fpga_.dev 0 (read_offset addr)).1 = .FPGA_OK
              then .ok (V.fpgaReadMMIO64 fpga_.dev 0 (read_offset addr)).2.1
              else .error (.status (V.fpgaReadMMIO64 fpga_.dev 0 (read_offset addr)).1))) := by
  by_cases h : addr % 2 = 1
  · have h0 : ¬ addr % 2 = 0 := by omega
    simp [write, read, h]
  · have h0 : addr % 2 = 0 := by omega
    refine ⟨?_, ?_, fun h1 => absurd h1 h, fun _ => ?_⟩
    · simp only [write, h, if_false, iff_false, not_exists]
      intro what
      split <;> simp
    · simp only [read, h, if_false, iff_false, not_exists]
      intro what
      split <;> simp
    · simp only [write, read, h, if_false]
      refine ⟨?_, ?_, ?_, ?_, ?_, ?_⟩ <;> split <;> simp_all

/-- C4: on a map with unique keys, `AFU::free(ptr)` throws a `runtime_error`
exactly when `ptr` is not a key of `buffer_map_`, and then leaves the map
unchanged; otherwise it removes exactly the node keyed by `ptr` (one node,
every other node kept in place), after which a second `free(ptr)` throws. -/
theorem free_throws_iff_not_recorded (buffer_map_ : StdMap) (ptr : Nat) (hwf : buffer_map_.WF) :
    ((∃ what, (free buffer_map_ ptr).1 = .error (.runtime_error what))
        ↔ ptr ∉ buffer_map_.map Prod.fst) ∧
    (ptr ∉ buffer_map_.map Prod.fst → (free buffer_map_ ptr).2 = buffer_map_) ∧
    (ptr ∈ buffer_map_.map Prod.fst →
      (free buffer_map_ ptr).1 = .ok () ∧
      (free buffer_map_ ptr).2 = buffer_map_.filter (fun node => node.1 != ptr) ∧
      (free buffer_map_ ptr).2.length + 1 = buffer_map_.length ∧
      (∀ key, key ≠ ptr → (free buffer_map_ ptr).2.find key = buffer_map_.find key) ∧
      (free buffer_map_ ptr).2.find ptr = none ∧
      (∃ what, (free (free buffer_map_ ptr).2 ptr).1 = .error (.runtime_error what))) := by
  have hnone := StdMap.find_eq_none_iff buffer_map_ ptr
  by_cases hmem : ptr ∈ buffer_map_.map Prod.fst
  · have hsome : ∃ node, buffer_map_.find ptr = some node := by
      cases hf : buffer_map_.find ptr with
      | none => exact absurd hmem (hnone.mp hf)
      | some node => exact ⟨node, rfl⟩
    obtain ⟨node, hnode⟩ := hsome
    have hfree : free buffer_map_ ptr = (.ok (), buffer_map_.erase ptr) := by
      simp [free, hnode]
    have hfilter := StdMap.erase_eq_filter buffer_map_ ptr hwf
    have hgone : (buffer_map_.erase ptr).find ptr = none := by
      rw [StdMap.find_eq_none_iff, hfilter]
      simp [List.mem_filter]
    refine ⟨?_, fun h => absurd hmem h, fun _ => ?_⟩
    · simp [hfree, hmem]
    · rw [hfree]
      refine ⟨rfl, hfilter, ?_, ?_, hgone, ?_⟩
      · have hn : node ∈ buffer_map_ := List.mem_of_find?_eq_some hnode
        have hp : (fun n : Nat × shared_buffer => n.1 == ptr) node = true :=
          List.find?_some (p := fun n : Nat × shared_buffer => n.1 == ptr) hnode
        have := List.length_eraseP_of_mem (p := fun n : Nat × shared_buffer => n.1 == ptr) hn hp
        simp only [StdMap.erase]
        have hpos : 0 < buffer_map_.length := List.length_pos_of_mem hn
        omega
      · intro key hkey
        simp only [hfilter, StdMap.find]
        rw [List.find?_filter]
        congr 1
        funext n
        by_cases hk : n.1 = key
        · have : n.1 ≠ ptr := hk ▸ hkey
          simp [hk, hkey]
        · simp [hk]
      · simp [free, hgone]
  · have hf : buffer_map_.find ptr = none := hnone.mpr hmem
    refine ⟨?_, fun _ => ?_, fun h => absurd h hmem⟩
    · simp [free, hf, hmem]
    · simp [free, hf]

/-- Witness for C4 on a map with two buffers. -/
theorem free_throws_iff_not_recorded_witness :
    StdMap.WF [(4096, ⟨4096, 4096⟩), (8192, ⟨8192, 4096⟩)] ∧
    (free (free [(4096, ⟨4096, 4096⟩), (8192, ⟨8192, 4096⟩)] 4096).2 4096).1 ≠ .ok () := by
  have hwf : StdMap.WF [(4096, ⟨4096, 4096⟩), (8192, ⟨8192, 4096⟩)] := by
    unfold StdMap.WF; decide
  refine ⟨hwf, ?_⟩
  obtain ⟨what, hw⟩ :=
    ((free_throws_iff_not_recorded _ 4096 hwf).2.2 (by decide)).2.2.2.2.2
  rw [hw]
  simp

/-- C5: `AFU::requestAfu` throws `FPGA_NOT_FOUND` iff enumeration returned no
accelerator, throws `FPGA_BUSY` iff it returned some and all are busy, and
otherwise returns the handle of the first accelerator that is not busy, having
opened exactly the accelerators up to and including that one. -/
theorem requestAfu_first_not_busy (open_ : Nat → OpenResult) (accelerators : List Nat) :
    ((requestAfu open_ accelerators).1 = .error (.status .FPGA_NOT_FOUND)
        ↔ accelerators = []) ∧
    ((requestAfu open_ accelerators).1 = .error (.status .FPGA_BUSY)
        ↔ accelerators ≠ [] ∧ ∀ a ∈ accelerators, open_ a = .busy) ∧
    (∀ pre a post h, accelerators = pre ++ a :: post → (∀ b ∈ pre, open_ b = .busy) →
        open_ a = .opened h → requestAfu open_ accelerators = (.ok h, pre ++ [a])) ∧
    (accelerators ≠ [] → (¬ ∀ a ∈ accelerators, open_ a = .busy) →
        ∃ pre a post h, accelerators = pre ++ a :: post ∧ (∀ b ∈ pre, open_ b = .busy) ∧
          open_ a = .opened h ∧ requestAfu open_ accelerators = (.ok h, pre ++ [a])) := by
  cases accelerators with
  | nil => simp [requestAfu]
  | cons a0 rest =>
    have hreq : requestAfu open_ (a0 :: rest) = requestAfu_loop open_ (a0 :: rest) [] := by
      simp [requestAfu]
    rw [hreq]
    refine ⟨?_, ?_, ?_, ?_⟩
    · rcases requestAfu_loop_cases open_ (a0 :: rest) [] with ⟨_, hres⟩ | ⟨_, _, _, _, _, _, _, hres⟩
        <;> simp [hres]
    · rcases requestAfu_loop_cases open_ (a0 :: rest) [] with
        ⟨hall, hres⟩ | ⟨pre, b, post, h, hl, _, hb, hres⟩
      · rw [hres]
        exact ⟨fun _ => ⟨by simp, hall⟩, fun _ => rfl⟩
      · simp only [hres, List.nil_append, ne_eq, reduceCtorEq, not_false_eq_true, true_and,
          false_iff]
        intro hall
        have hmem : b ∈ a0 :: rest := by rw [hl]; simp
        rw [hall b hmem] at hb
        cases hb
    · intro pre a post h hl hpre ha
      rw [hl, requestAfu_loop_first open_ pre a post h [] hpre ha]
      simp
    · intro _ hnot
      rcases requestAfu_loop_cases open_ (a0 :: rest) [] with
        ⟨hall, _⟩ | ⟨pre, b, post, h, hl, hpre, hb, hres⟩
      · exact absurd hall hnot
      · exact ⟨pre, b, post, h, hl, hpre, hb, by simpa using hres⟩

/-- C6: `AFU::alloc` throws the `runtime_error` "Invalid page size option"
exactly when `page_option` is none of `PAGE_4KB`, `PAGE_2MB`, `PAGE_1GB`; for
each of the three the read of `PAGE_SIZES` is in bounds and gives `2^12`,
`2^21`, `2^30`, a power of two, and the call gets past the check. -/
theorem alloc_invalid_page_option (allocate : Nat → Nat) (buffer_map_ : StdMap) (bytes : Nat)
    (page_option : Int) :
    (alloc allocate buffer_map_ bytes page_option
        = .error (.runtime_error "ERROR: Invalid page size option.")
      ↔ ¬ (page_option = PAGE_4KB ∨ page_option = PAGE_2MB ∨ page_option = PAGE_1GB)) ∧
    ((∃ thrown, alloc allocate buffer_map_ bytes page_option = .error thrown)
      ↔ ¬ (page_option = PAGE_4KB ∨ page_option = PAGE_2MB ∨ page_option = PAGE_1GB)) ∧
    PAGE_SIZES_at PAGE_4KB = some (2 ^ 12) ∧
    PAGE_SIZES_at PAGE_2MB = some (2 ^ 21) ∧
    PAGE_SIZES_at PAGE_1GB = some (2 ^ 30) ∧
    ((page_option = PAGE_4KB ∨ page_option = PAGE_2MB ∨ page_option = PAGE_1GB) →
      ∃ k page_size, PAGE_SIZES_at page_option = some page_size ∧ page_size = 2 ^ k ∧
        alloc allocate buffer_map_ bytes page_option
          = .ok (some (⟨allocate (page_aligned_bytes bytes page_size),
                  page_aligned_bytes bytes page_size⟩,
                buffer_map_.assign (allocate (page_aligned_bytes bytes page_size))
                  ⟨allocate (page_aligned_bytes bytes page_size),
                    page_aligned_bytes bytes page_size⟩))) := by
  have h4 : PAGE_SIZES_at PAGE_4KB = some (2 ^ 12) := by decide
  have h2 : PAGE_SIZES_at PAGE_2MB = some (2 ^ 21) := by decide
  have h1 : PAGE_SIZES_at PAGE_1GB = some (2 ^ 30) := by decide
  have hvalid : (page_option = PAGE_4KB ∨ page_option = PAGE_2MB ∨ page_option = PAGE_1GB) →
      ∃ k page_size, PAGE_SIZES_at page_option = some page_size ∧ page_size = 2 ^ k ∧
        alloc allocate buffer_map_ bytes page_option
          = .ok (some (⟨allocate (page_aligned_bytes bytes page_size),
                  page_aligned_bytes bytes page_size⟩,
                buffer_map_.assign (allocate (page_aligned_bytes bytes page_size))
                  ⟨allocate (page_aligned_bytes bytes page_size),
                    page_aligned_bytes bytes page_size⟩)) := by
    have e4 : PAGE_SIZES_at 0 = some 4096 := by decide
    have e2 : PAGE_SIZES_at 1 = some 2097152 := by decide
    have e1 : PAGE_SIZES_at 2 = some 1073741824 := by decide
    rintro (h | h | h)
    · subst h
      exact ⟨12, 2 ^ 12, h4, rfl, by simp [alloc, e4, PAGE_4KB, PAGE_1GB]⟩
    · subst h
      exact ⟨21, 2 ^ 21, h2, rfl, by simp [alloc, e2, PAGE_4KB, PAGE_2MB, PAGE_1GB]⟩
    · subst h
      exact ⟨30, 2 ^ 30, h1, rfl, by simp [alloc, e1, PAGE_4KB, PAGE_1GB]⟩
  have hrange : (page_option < PAGE_4KB ∨ page_option > PAGE_1GB)
      ↔ ¬ (page_option = PAGE_4KB ∨ page_option = PAGE_2MB ∨ page_option = PAGE_1GB) := by
    simp only [PAGE_4KB, PAGE_2MB, PAGE_1GB]
    omega
  refine ⟨?_, ?_, h4, h2, h1, hvalid⟩
  · by_cases hv : (page_option = PAGE_4KB ∨ page_option = PAGE_2MB ∨ page_option = PAGE_1GB)
    · obtain ⟨k, ps, _, _, halloc⟩ := hvalid hv
      simp [halloc, hv]
    · have := hrange.mpr hv
      simp [alloc, this, hv]
  · by_cases hv : (page_option = PAGE_4KB ∨ page_option = PAGE_2MB ∨ page_option = PAGE_1GB)
    · obtain ⟨k, ps, _, _, halloc⟩ := hvalid hv
      simp [halloc, hv]
    · have := hrange.mpr hv
      simp [alloc, this, hv]

end AFU

namespace AFU

/-- Masking a 32-bit value with `2^32 - 2^k` clears its low `k` bits. -/
theorem and_high_mask (x k : Nat) (hk : k ≤ 32) (hx : x < 2 ^ 32) :
    x &&& (2 ^ 32 - 2 ^ k) = x / 2 ^ k * 2 ^ k := by
  apply Nat.eq_of_testBit_eq
  intro i
  have hm : (2 ^ 32 - 2 ^ k).testBit i = (decide (i < 32) && !decide (i < k)) := by
    have h := Nat.testBit_two_pow_sub_succ (x := 2 ^ k - 1) (n := 32)
      (lt_of_lt_of_le (Nat.sub_lt (Nat.two_pow_pos k) (by decide))
        (Nat.pow_le_pow_right (by decide) hk)) i
    rw [Nat.sub_add_cancel (Nat.two_pow_pos k)] at h
    rw [h, Nat.testBit_two_pow_sub_one]
  rw [Nat.testBit_and, hm, Nat.mul_comm, Nat.testBit_mul_pow_two, ← Nat.shiftRight_eq_div_pow,
    Nat.testBit_shiftRight]
  by_cases h1 : i < k
  · simp [h1, Nat.not_le.mpr h1]
  · have h2 : k ≤ i := Nat.not_lt.mp h1
    have h3 : k + (i - k) = i := by omega
    by_cases h4 : i < 32
    · simp [h1, h2, h3, h4]
    · have h5 : x.testBit i = false :=
        Nat.testBit_lt_two_pow (lt_of_lt_of_le hx (Nat.pow_le_pow_right (by decide) (by omega)))
      simp [h1, h2, h3, h4, h5]

/-- Where the rounding of `AFU::alloc` is right: for a page size `2^k` below
`2^32` and a request with `bytes + page_size <= 2^32`, `page_aligned_bytes` is
the multiple of the page size in `[bytes, bytes + page_size)`. -/
theorem page_aligned_bytes_below_4GiB (bytes k : Nat) (hk : k < 32)
    (h : bytes + 2 ^ k ≤ 2 ^ 32) :
    2 ^ k ∣ page_aligned_bytes bytes (2 ^ k) ∧
    bytes ≤ page_aligned_bytes bytes (2 ^ k) ∧
    page_aligned_bytes bytes (2 ^ k) < bytes + 2 ^ k := by
  have hpos : 0 < 2 ^ k := Nat.two_pow_pos k
  have hlt : 2 ^ k < 2 ^ 32 := Nat.pow_lt_pow_right (by decide) hk
  have hlhs : (bytes + 2 ^ k + (2 ^ SIZE_BITS - 1)) % 2 ^ SIZE_BITS = bytes + 2 ^ k - 1 := by
    simp only [SIZE_BITS]
    omega
  have hmask : (2 ^ UNSIGNED_BITS - 2 ^ k % 2 ^ UNSIGNED_BITS) % 2 ^ UNSIGNED_BITS
      = 2 ^ 32 - 2 ^ k := by
    simp only [UNSIGNED_BITS]
    omega
  have hval : page_aligned_bytes bytes (2 ^ k) = (bytes + 2 ^ k - 1) / 2 ^ k * 2 ^ k := by
    unfold page_aligned_bytes
    simp only [hlhs, hmask]
    exact and_high_mask _ k (by omega) (by omega)
  have hdm := Nat.div_add_mod (bytes + 2 ^ k - 1) (2 ^ k)
  have hmod := Nat.mod_lt (bytes + 2 ^ k - 1) hpos
  rw [hval]
  refine ⟨Dvd.intro_left _ rfl, ?_, ?_⟩
  · rw [Nat.mul_comm]
    omega
  · rw [Nat.mul_comm]
    omega

/-- Where `AFU::write` and `AFU::read` agree: for an even word address below
`2^30` both pass the byte offset `addr*4`, and over the register file a write
followed by a read of the same address returns the data written. -/
theorem write_read_roundtrip_below_2_30 (regs : Nat → Nat) (issued : List MmioTxn)
    (addr data : Nat) (heven : addr % 2 = 0) (hlt : addr < 2 ^ 30) :
    write_offset addr = addr * 4 ∧ read_offset addr = addr * 4 ∧
    (read registerFile (write registerFile ⟨regs, issued⟩ addr data).2 addr).1 = .ok data := by
  have hne : ¬ addr % 2 = 1 := by omega
  have hw : write_offset addr = addr * 4 := by
    simp only [write_offset, UNSIGNED_BITS]
    omega
  have hr : read_offset addr = addr * 4 := by
    simp only [read_offset, SIZE_BITS]
    omega
  refine ⟨hw, hr, ?_⟩
  simp [write, read, registerFile, hne, hw, hr]

end AFU

/-! ## Part 4: lemmas and theorems about the accumulation tutorials -/

namespace Sycl

/-! ### 32-bit wrap-around -/

theorem wrapInt32_isInt32 (z : Int) : isInt32 (wrapInt32 z) := by
  unfold isInt32 wrapInt32
  omega

theorem wrapInt32_of_isInt32 {z : Int} (h : isInt32 z) : wrapInt32 z = z := by
  unfold isInt32 at h
  unfold wrapInt32
  omega

theorem wrapInt32_cast (z : Int) : ((wrapInt32 z : Int) : ZMod (2 ^ 32)) = (z : ZMod (2 ^ 32)) := by
  rw [ZMod.intCast_eq_intCast_iff]
  unfold Int.ModEq wrapInt32
  push_cast
  omega

theorem addInt32_cast (a b : Int) :
    ((addInt32 a b : Int) : ZMod (2 ^ 32)) = (a : ZMod (2 ^ 32)) + (b : ZMod (2 ^ 32)) := by
  unfold addInt32
  rw [wrapInt32_cast, Int.cast_add]

theorem addInt32_isInt32 (a b : Int) : isInt32 (addInt32 a b) := wrapInt32_isInt32 _

theorem eq_of_cast_eq {a b : Int} (ha : isInt32 a) (hb : isInt32 b)
    (h : (a : ZMod (2 ^ 32)) = (b : ZMod (2 ^ 32))) : a = b := by
  rw [ZMod.intCast_eq_intCast_iff] at h
  unfold Int.ModEq at h
  unfold isInt32 at ha hb
  push_cast at h
  omega

theorem foldl_addInt32_cast (x : List Int) (a : Int) :
    ((x.foldl addInt32 a : Int) : ZMod (2 ^ 32))
      = (a : ZMod (2 ^ 32)) + (x.map (fun v : Int => (v : ZMod (2 ^ 32)))).sum := by
  induction x generalizing a with
  | nil => simp
  | cons v rest ih =>
    rw [List.foldl_cons, ih, addInt32_cast, List.map_cons, List.sum_cons, add_assoc]

theorem foldl_addInt32_isInt32 (x : List Int) (a : Int) (ha : isInt32 a) :
    isInt32 (x.foldl addInt32 a) := by
  induction x generalizing a with
  | nil => exact ha
  | cons v rest ih => exact ih _ (addInt32_isInt32 _ _)

theorem sum_map_eq_sumFirst (x : List Int) :
    (x.map (fun v : Int => (v : ZMod (2 ^ 32)))).sum = sumFirst x.length x := by
  induction x using List.reverseRecOn with
  | nil => simp [sumFirst]
  | append_singleton l a ih =>
    unfold sumFirst at ih ⊢
    rw [List.map_append, List.sum_append, List.length_append, List.length_singleton,
      Finset.sum_range_succ, ih]
    congr 1
    · apply Finset.sum_congr rfl
      intro j hj
      rw [Finset.mem_range] at hj
      simp [List.getD_eq_getElem?_getD, List.getElem?_append_left hj]
    · simp [List.getD_eq_getElem?_getD]

theorem correct_out_cast (x : List Int) :
    ((correct_out x : Int) : ZMod (2 ^ 32)) = sumFirst x.length x := by
  unfold correct_out
  rw [foldl_addInt32_cast, sum_map_eq_sumFirst]
  simp

theorem correct_out_isInt32 (x : List Int) : isInt32 (correct_out x) :=
  foldl_addInt32_isInt32 x 0 (by decide)

/-! ### The conversions through floating point -/

theorem ceil_half_eq {n : Nat} (h : n < 2 ^ 53) : ceil_half n = (n + 1) / 2 := by
  unfold ceil_half roundToSignificand
  rw [if_pos h]

theorem toUnsigned_eq {n : Nat} (h : n < 2 ^ 32) : toUnsigned n = n := by
  unfold toUnsigned
  exact Nat.mod_eq_of_lt h

/-! ### Pairing up a sum -/

theorem sum_pairs (f : Nat → ZMod (2 ^ 32)) (m : Nat) :
    ∑ j in Finset.range (2 * m), f j = ∑ i in Finset.range m, (f (2 * i) + f (2 * i + 1)) := by
  induction m with
  | zero => simp
  | succ m ih =>
    rw [show 2 * (m + 1) = 2 * m + 1 + 1 from by ring, Finset.sum_range_succ,
      Finset.sum_range_succ, Finset.sum_range_succ, ih, add_assoc]

/-- Halving step on sums: if `g i` is the pair sum `f (2i) + f (2i+1)` when both
inputs exist and `f (2i)` for the odd input left over, the first `(r+1)/2`
values of `g` have the sum of the first `r` values of `f`. -/
theorem sum_halve (f g : Nat → ZMod (2 ^ 32)) (r : Nat)
    (hpair : ∀ i, 2 * i + 1 < r → g i = f (2 * i) + f (2 * i + 1))
    (hodd : ∀ i, 2 * i + 1 = r → g i = f (2 * i)) :
    ∑ i in Finset.range ((r + 1) / 2), g i = ∑ j in Finset.range r, f j := by
  rcases Nat.even_or_odd' r with ⟨m, hm | hm⟩
  · subst hm
    rw [show (2 * m + 1) / 2 = m from by omega, sum_pairs]
    apply Finset.sum_congr rfl
    intro i hi
    rw [Finset.mem_range] at hi
    exact hpair i (by omega)
  · subst hm
    rw [show (2 * m + 1 + 1) / 2 = m + 1 from by omega, Finset.sum_range_succ,
      Finset.sum_range_succ, sum_pairs, hodd m rfl]
    congr 1
    apply Finset.sum_congr rfl
    intro i hi
    rw [Finset.mem_range] at hi
    exact hpair i (by omega)

theorem store_length {a a' : List Int} {i : Nat} {v : Int} (h : store a i v = some a') :
    a'.length = a.length := by
  unfold store at h
  split at h
  · cases h; simp
  · cases h

theorem mem_valid_schedule {sched : Schedule} (h : sched.Valid) (iteration n i : Nat) :
    i ∈ sched iteration n ↔ i < n := by
  rw [(h iteration n).mem_iff, List.mem_range]

end Sycl

namespace accum_strategy3_1

open Sycl

theorem pair_accum_eq (r : Nat) (x y : List Int) (i : Nat) (hx : r ≤ x.length)
    (hy : (r + 1) / 2 ≤ y.length) :
    accum r x i y = some (if 2 * i + 1 ≤ r then y.set i (pairVal r x i) else y) := by
  unfold accum pairVal load store
  by_cases h1 : 2 * i + 1 = r
  · have hi : i < y.length := by omega
    have h2 : 2 * i < x.length := by omega
    simp [h1, hi, List.getElem?_eq_getElem h2, List.getD_eq_getElem?_getD]
  · by_cases h2 : 2 * i + 1 < r
    · have hi : i < y.length := by omega
      have h3 : 2 * i < x.length := by omega
      have h4 : 2 * i + 1 < x.length := by omega
      have h5 : 2 * i + 1 ≤ r := by omega
      simp [h1, h2, h5, hi, List.getElem?_eq_getElem h3, List.getElem?_eq_getElem h4,
        List.getD_eq_getElem?_getD]
    · have h5 : ¬ 2 * i + 1 ≤ r := by omega
      simp [h1, h2, h5]

theorem pair_launch_accum (r : Nat) (x : List Int) (order : List Nat) (y : List Int)
    (hx : r ≤ x.length) (hy : (r + 1) / 2 ≤ y.length) :
    ∃ y', launch (accum r x) order y = some y' ∧ y'.length = y.length ∧
      ∀ j, y'[j]? = if j ∈ order ∧ 2 * j + 1 ≤ r then some (pairVal r x j) else y[j]? := by
  induction order generalizing y with
  | nil => exact ⟨y, rfl, rfl, fun j => by simp⟩
  | cons i rest ih =>
    by_cases hi : 2 * i + 1 ≤ r
    · have hstep : accum r x i y = some (y.set i (pairVal r x i)) := by
        rw [pair_accum_eq r x y i hx hy, if_pos hi]
      obtain ⟨y', hl, hlen, hget⟩ := ih (y.set i (pairVal r x i)) (by simpa using hy)
      refine ⟨y', ?_, by simpa using hlen, ?_⟩
      · simp only [launch, List.foldlM_cons, hstep, Option.bind_eq_bind, Option.some_bind]
        exact hl
      · intro j
        rw [hget j]
        by_cases hj : j = i
        · subst hj
          have : j < y.length := by omega
          simp [hi, List.getElem?_set_self, this]
        · have hne : i ≠ j := fun h => hj h.symm
          simp [hj, List.getElem?_set_ne hne]
    · have hstep : accum r x i y = some y := by
        rw [pair_accum_eq r x y i hx hy, if_neg hi]
      obtain ⟨y', hl, hlen, hget⟩ := ih y hy
      refine ⟨y', ?_, hlen, ?_⟩
      · simp only [launch, List.foldlM_cons, hstep, Option.bind_eq_bind, Option.some_bind]
        exact hl
      · intro j
        rw [hget j]
        by_cases hj : j = i
        · subst hj
          simp [hi]
        · simp [hj]

end accum_strategy3_1

namespace Sycl

theorem front_eq {x : List Int} (h : 0 < x.length) : front x = .ok (x.getD 0 0) := by
  unfold front
  rw [List.getD_eq_getElem?_getD, List.getElem?_eq_getElem h]
  rfl

theorem sumFirst_one (x : List Int) : sumFirst 1 x = ((x.getD 0 0 : Int) : ZMod (2 ^ 32)) := by
  simp [sumFirst]

/-- Halving step on the arrays: if `y` holds `pairVal r x i` at every `i` below
`(r+1)/2`, its first `(r+1)/2` elements have the sum of the first `r` elements
of `x`. -/
theorem sumFirst_halve (r : Nat) (x y : List Int)
    (h : ∀ i, 2 * i + 1 ≤ r → y.getD i 0 = pairVal r x i) :
    sumFirst ((r + 1) / 2) y = sumFirst r x := by
  unfold sumFirst
  apply sum_halve (fun j => ((x.getD j 0 : Int) : ZMod (2 ^ 32)))
    (fun i => ((y.getD i 0 : Int) : ZMod (2 ^ 32))) r
  · intro i hi
    have hne : 2 * i + 1 ≠ r := by omega
    simp only [h i (by omega), pairVal, if_neg hne, addInt32_cast]
  · intro i hi
    simp only [h i (by omega), pairVal, if_pos hi]

theorem pairVal_isInt32 (r : Nat) (x : List Int) (i : Nat)
    (hx : ∀ j < r, isInt32 (x.getD j 0)) : isInt32 (pairVal r x i) := by
  unfold pairVal
  split
  · exact hx _ (by omega)
  · exact addInt32_isInt32 _ _

end Sycl

namespace accum_strategy3_1

open Sycl

theorem strategy3_1_host_loop_sum (sched : Schedule) (hs : sched.Valid) (nwi : Nat) :
    ∀ (fuel iteration r : Nat) (x y : List Int), x.length = y.length → 1 ≤ r →
      r ≤ x.length → r ≤ fuel + 1 → (r + 1) / 2 ≤ nwi → x.length < 2 ^ 53 →
      (∀ j < r, isInt32 (x.getD j 0)) →
      ∃ x', host_loop sched nwi fuel iteration r x y = .ok x' ∧ 0 < x'.length ∧
        isInt32 (x'.getD 0 0) ∧ ((x'.getD 0 0 : Int) : ZMod (2 ^ 32)) = sumFirst r x := by
  intro fuel
  induction fuel with
  | zero =>
    intro iteration r x y _ h1 hrx hfuel _ _ hint
    have hr : r = 1 := by omega
    subst hr
    exact ⟨x, by simp [host_loop], by omega, hint 0 (by omega), (sumFirst_one x).symm⟩
  | succ fuel ih =>
    intro iteration r x y hlen h1 hrx hfuel hnwi hbig hint
    by_cases hr : r > 1
    · obtain ⟨y', hl, hlen', hget⟩ :=
        pair_launch_accum r x (sched iteration nwi) y hrx (by omega)
      have hceil : ceil_half r = (r + 1) / 2 := ceil_half_eq (by omega)
      have hval : ∀ i, 2 * i + 1 ≤ r → y'.getD i 0 = pairVal r x i := by
        intro i hi
        have hmem : i ∈ sched iteration nwi := by
          rw [mem_valid_schedule hs]
          omega
        rw [List.getD_eq_getElem?_getD, hget i, if_pos ⟨hmem, hi⟩]
        rfl
      obtain ⟨x', hres, hpos, hint', hsum⟩ :=
        ih (iteration + 1) ((r + 1) / 2) y' y' rfl (by omega) (by omega) (by omega)
          (by omega) (by omega)
          (fun j hj => by
            rw [hval j (by omega)]
            exact pairVal_isInt32 r x j hint)
      refine ⟨x', ?_, hpos, hint', ?_⟩
      · simp only [host_loop, hr, if_true, hl, hceil]
        exact hres
      · rw [hsum, sumFirst_halve r x y' hval]
    · have hr1 : r = 1 := by omega
      subst hr1
      exact ⟨x, by simp [host_loop], by omega, hint 0 (by omega), (sumFirst_one x).symm⟩

/-- C7: accum_strategy3_1 computes the accumulation. For every vector `x` of
`n >= 1` ints (`n` an `int`, as `atoi` returns it) and every order in which the
work-items of each launch execute, the host loop ends and `x_h[0]` is
`correct_out`, the wrap-around sum of `x`, so the result check passes. -/
theorem strategy3_1_correct (sched : Schedule) (x : List Int) (hs : sched.Valid)
    (hn : 1 ≤ x.length) (hmax : x.length < 2 ^ 31) (hint : ∀ v ∈ x, isInt32 v) :
    main sched x = .ok (correct_out x) := by
  have hint' : ∀ j < x.length, isInt32 (x.getD j 0) := by
    intro j hj
    rw [List.getD_eq_getElem?_getD, List.getElem?_eq_getElem hj]
    exact hint _ (List.getElem_mem hj)
  have hnwi : toUnsigned (ceil_half x.length) = (x.length + 1) / 2 := by
    rw [ceil_half_eq (by omega), toUnsigned_eq (by omega)]
  obtain ⟨x', hres, hpos, hx0, hsum⟩ :=
    strategy3_1_host_loop_sum sched hs ((x.length + 1) / 2) x.length 0 x.length x
      (List.replicate x.length 0) (by simp) hn le_rfl (by omega) le_rfl (by omega) hint'
  have hfinal : x'.getD 0 0 = correct_out x :=
    eq_of_cast_eq hx0 (correct_out_isInt32 x) (by rw [hsum, correct_out_cast])
  simp only [main, hnwi, hres, front_eq hpos, hfinal]

/-- Witness for C7: a vector of five ints, work-items in increasing order. -/
theorem strategy3_1_correct_witness :
    main Schedule.inOrder [3, -7, 10, 2147483647, 5] = .ok (correct_out [3, -7, 10, 2147483647, 5]) :=
  strategy3_1_correct Schedule.inOrder [3, -7, 10, 2147483647, 5]
    (fun _ _ => List.Perm.refl _) (by decide) (by decide) (by decide)

end accum_strategy3_1

namespace accum_strategy4_1

open Sycl

theorem accum_eq_strategy3_1 : accum = accum_strategy3_1.accum := rfl

theorem strategy4_1_host_loop_sum (sched : Schedule) (hs : sched.Valid) :
    ∀ (fuel iteration r : Nat) (x y : List Int), 1 ≤ r → r ≤ fuel + 1 → r < 2 ^ 31 →
      r ≤ (if iteration % 2 = 0 then x else y).length →
      (r + 1) / 2 ≤ (if iteration % 2 = 0 then y else x).length →
      (∀ j < r, isInt32 ((if iteration % 2 = 0 then x else y).getD j 0)) →
      ∃ iteration' x' y', host_loop sched fuel iteration r x y = .ok (iteration', x', y') ∧
        0 < (if iteration' % 2 = 0 then x' else y').length ∧
        isInt32 ((if iteration' % 2 = 0 then x' else y').getD 0 0) ∧
        (((if iteration' % 2 = 0 then x' else y').getD 0 0 : Int) : ZMod (2 ^ 32))
          = sumFirst r (if iteration % 2 = 0 then x else y) := by
  intro fuel
  induction fuel with
  | zero =>
    intro iteration r x y h1 hfuel _ hin _ hint
    have hr : r = 1 := by omega
    subst hr
    exact ⟨iteration, x, y, by simp [host_loop], by omega, hint 0 (by omega),
      (sumFirst_one _).symm⟩
  | succ fuel ih =>
    intro iteration r x y h1 hfuel hbig hin hout hint
    by_cases hr : r > 1
    · have hceil : ceil_half r = (r + 1) / 2 := ceil_half_eq (by omega)
      have hnwi : toUnsigned ((r + 1) / 2) = (r + 1) / 2 := toUnsigned_eq (by omega)
      have hpar : toUnsigned (iteration + 1) % 2 = (iteration + 1) % 2 := by
        unfold toUnsigned
        omega
      by_cases hit : iteration % 2 = 0
      · rw [if_pos hit] at hin hint
        rw [if_pos hit] at hout ⊢
        have hit' : ¬ toUnsigned (iteration + 1) % 2 = 0 := by omega
        obtain ⟨y', hl, hlen', hget⟩ :=
          accum_strategy3_1.pair_launch_accum r x (sched iteration ((r + 1) / 2)) y hin hout
        have hval : ∀ i, 2 * i + 1 ≤ r → y'.getD i 0 = pairVal r x i := by
          intro i hi
          have hmem : i ∈ sched iteration ((r + 1) / 2) := by
            rw [mem_valid_schedule hs]
            omega
          rw [List.getD_eq_getElem?_getD, hget i, if_pos ⟨hmem, hi⟩]
          rfl
        obtain ⟨it', x', y'', hres, hpos, hint', hsum⟩ :=
          ih (toUnsigned (iteration + 1)) ((r + 1) / 2) x y' (by omega) (by omega) (by omega)
            (by rw [if_neg hit']; omega) (by rw [if_neg hit']; omega)
            (fun j hj => by
              rw [if_neg hit', hval j (by omega)]
              exact pairVal_isInt32 r x j hint)
        refine ⟨it', x', y'', ?_, hpos, hint', ?_⟩
        · simp only [host_loop, hr, if_true, hit, hceil, hnwi, accum_eq_strategy3_1, hl]
          exact hres
        · rw [hsum, if_neg hit', sumFirst_halve r x y' hval]
      · rw [if_neg hit] at hin hint
        rw [if_neg hit] at hout ⊢
        have hit' : toUnsigned (iteration + 1) % 2 = 0 := by omega
        obtain ⟨x', hl, hlen', hget⟩ :=
          accum_strategy3_1.pair_launch_accum r y (sched iteration ((r + 1) / 2)) x hin hout
        have hval : ∀ i, 2 * i + 1 ≤ r → x'.getD i 0 = pairVal r y i := by
          intro i hi
          have hmem : i ∈ sched iteration ((r + 1) / 2) := by
            rw [mem_valid_schedule hs]
            omega
          rw [List.getD_eq_getElem?_getD, hget i, if_pos ⟨hmem, hi⟩]
          rfl
        obtain ⟨it', x'', y', hres, hpos, hint', hsum⟩ :=
          ih (toUnsigned (iteration + 1)) ((r + 1) / 2) x' y (by omega) (by omega) (by omega)
            (by rw [if_pos hit']; omega) (by rw [if_pos hit']; omega)
            (fun j hj => by
              rw [if_pos hit', hval j (by omega)]
              exact pairVal_isInt32 r y j hint)
        refine ⟨it', x'', y', ?_, hpos, hint', ?_⟩
        · simp only [host_loop, hr, if_true, hit, if_false, hceil, hnwi, accum_eq_strategy3_1,
            hl]
          exact hres
        · rw [hsum, if_pos hit', sumFirst_halve r y x' hval]
    · have hr1 : r = 1 := by omega
      subst hr1
      exact ⟨iteration, x, y, by simp [host_loop], by omega, hint 0 (by omega),
        (sumFirst_one _).symm⟩

/-- C9: accum_strategy4_1 finds the result where the parity of `iteration` says
it is. For every vector `x` of `n >= 1` ints (`n` an `int`), with `x_d` of size
`n` and `y_d` of size `ceil(n/2)`, and every order of the work-items, no kernel
access is out of bounds, the host loop ends, and `actual_out` (`x_h[0]` for an
even `iteration`, `y_h[0]` for an odd one) is `correct_out`. -/
theorem strategy4_1_correct (sched : Schedule) (x : List Int) (hs : sched.Valid)
    (hn : 1 ≤ x.length) (hmax : x.length < 2 ^ 31) (hint : ∀ v ∈ x, isInt32 v) :
    main sched x = .ok (correct_out x) := by
  have hint' : ∀ j < x.length, isInt32 (x.getD j 0) := by
    intro j hj
    rw [List.getD_eq_getElem?_getD, List.getElem?_eq_getElem hj]
    exact hint _ (List.getElem_mem hj)
  have hceil : ceil_half x.length = (x.length + 1) / 2 := ceil_half_eq (by omega)
  obtain ⟨it', x', y', hres, hpos, hx0, hsum⟩ :=
    strategy4_1_host_loop_sum sched hs x.length 0 x.length x (List.replicate ((x.length + 1) / 2) 0)
      hn (by omega) hmax (by simp) (by simp) (by simpa using hint')
  have hfinal : (if it' % 2 = 0 then x' else y').getD 0 0 = correct_out x :=
    eq_of_cast_eq hx0 (correct_out_isInt32 x) (by rw [hsum, correct_out_cast]; simp)
  simp only [main, hceil, hres]
  split
  · rename_i h
    rw [if_pos h] at hpos hfinal
    rw [front_eq hpos, hfinal]
  · rename_i h
    rw [if_neg h] at hpos hfinal
    rw [front_eq hpos, hfinal]

/-- Witness for C9: a vector of five ints, work-items in decreasing order. -/
theorem strategy4_1_correct_witness :
    main (fun _ n => (List.range n).reverse) [3, -7, 10, 2147483647, 5]
      = .ok (correct_out [3, -7, 10, 2147483647, 5]) :=
  strategy4_1_correct (fun _ n => (List.range n).reverse) [3, -7, 10, 2147483647, 5]
    (fun _ _ => List.reverse_perm _) (by decide) (by decide) (by decide)

end accum_strategy4_1

namespace Sycl

theorem toSizeT_natCast {p : Nat} (h : p < 2 ^ 64) : toSizeT (p : Int) = p := by
  unfold toSizeT
  omega

theorem wrapInt32_natCast {p : Nat} (h : p < 2 ^ 31) : wrapInt32 (p : Int) = (p : Int) := by
  apply wrapInt32_of_isInt32
  unfold isInt32
  omega

end Sycl

namespace accum_strategy5

open Sycl

theorem stride_eq {k : Nat} (hk : k < 31) : stride k = ((2 ^ k : Nat) : Int) := by
  simp [stride, hk]

theorem active_bound {s r i n : Nat} (hi : 2 * i + 1 < r) (hb : (r - 1) * s < n) :
    2 * s * i + s < n := by
  have h1 : (2 * i + 1) * s ≤ (r - 1) * s := Nat.mul_le_mul_right s (by omega)
  have h2 : (2 * i + 1) * s = 2 * s * i + s := by ring
  omega

theorem stride_accum_eq (k r i : Nat) (x : List Int) (hk : k < 31) (hb : (r - 1) * 2 ^ k < x.length)
    (hmax : x.length < 2 ^ 31) :
    accum (stride k) r i x
      = some (if 2 * i + 1 < r then
          x.set (2 * 2 ^ k * i)
            (addInt32 (x.getD (2 * 2 ^ k * i) 0) (x.getD (2 * 2 ^ k * i + 2 ^ k) 0))
        else x) := by
  by_cases hi : 2 * i + 1 < r
  · have hP := active_bound hi hb
    have hS : 0 < 2 ^ k := Nat.pos_pow_of_pos k (by decide)
    have h1 : 2 * 2 ^ k * i < x.length := by omega
    have h2 : 2 * 2 ^ k * i + 2 ^ k < x.length := by omega
    have hbase : wrapInt32 (2 * stride k * (i : Int)) = ((2 * 2 ^ k * i : Nat) : Int) := by
      rw [stride_eq hk, ← wrapInt32_natCast (p := 2 * 2 ^ k * i) (by omega)]
      norm_cast
    have hnext : wrapInt32 (((2 * 2 ^ k * i : Nat) : Int) + stride k)
        = ((2 * 2 ^ k * i + 2 ^ k : Nat) : Int) := by
      rw [stride_eq hk, ← wrapInt32_natCast (p := 2 * 2 ^ k * i + 2 ^ k) (by omega)]
      norm_cast
    simp only [accum, hbase, hnext, if_pos hi, toSizeT_natCast (p := 2 * 2 ^ k * i) (by omega),
      toSizeT_natCast (p := 2 * 2 ^ k * i + 2 ^ k) (by omega), load, store,
      List.getElem?_eq_getElem h1, List.getElem?_eq_getElem h2, List.getD_eq_getElem?_getD]
    simp [h1]
  · simp [accum, hi]

theorem stride_launch_accum (k r : Nat) (hk : k < 31) (order : List Nat) (hnd : order.Nodup)
    (x : List Int) (hb : (r - 1) * 2 ^ k < x.length) (hmax : x.length < 2 ^ 31) :
    ∃ x', launch (accum (stride k) r) order x = some x' ∧ x'.length = x.length ∧
      (∀ i ∈ order, 2 * i + 1 < r →
        x'.getD (2 * 2 ^ k * i) 0
          = addInt32 (x.getD (2 * 2 ^ k * i) 0) (x.getD (2 * 2 ^ k * i + 2 ^ k) 0)) ∧
      (∀ j, (∀ i ∈ order, 2 * i + 1 < r → j ≠ 2 * 2 ^ k * i) → x'.getD j 0 = x.getD j 0) := by
  have hS : 0 < 2 ^ k := Nat.pos_pow_of_pos k (by decide)
  induction order generalizing x with
  | nil => exact ⟨x, rfl, rfl, by simp, fun _ _ => rfl⟩
  | cons i rest ih =>
    rw [List.nodup_cons] at hnd
    by_cases hi : 2 * i + 1 < r
    · have hP := active_bound hi hb
      have hstep := stride_accum_eq k r i x hk hb hmax
      rw [if_pos hi] at hstep
      obtain ⟨x', hl, hlen, ha, hu⟩ := ih hnd.2
        (x.set (2 * 2 ^ k * i)
          (addInt32 (x.getD (2 * 2 ^ k * i) 0) (x.getD (2 * 2 ^ k * i + 2 ^ k) 0)))
        (by simpa using hb) (by simpa using hmax)
      have hne : ∀ i0 ∈ rest, 2 * 2 ^ k * i ≠ 2 * 2 ^ k * i0 := by
        intro i0 hi0 he
        have : i = i0 := Nat.eq_of_mul_eq_mul_left (by omega : 0 < 2 * 2 ^ k) he
        exact hnd.1 (this ▸ hi0)
      have hne' : ∀ i0, 2 * 2 ^ k * i ≠ 2 * 2 ^ k * i0 + 2 ^ k := by
        intro i0 he
        have h3 : 2 ^ k * (2 * i) = 2 ^ k * (2 * i0 + 1) := by
          have e1 : 2 ^ k * (2 * i) = 2 * 2 ^ k * i := by ring
          have e2 : 2 ^ k * (2 * i0 + 1) = 2 * 2 ^ k * i0 + 2 ^ k := by ring
          omega
        have := Nat.eq_of_mul_eq_mul_left hS h3
        omega
      refine ⟨x', ?_, by simpa using hlen, ?_, ?_⟩
      · simp only [launch, List.foldlM_cons, hstep, Option.bind_eq_bind, Option.some_bind]
        exact hl
      · intro i0 hi0 hact
        rcases List.mem_cons.mp hi0 with rfl | hi0
        · rw [hu _ (fun i1 hi1 _ => hne i1 hi1)]
          simp [List.getD_eq_getElem?_getD, List.getElem?_set_self (show 2 * 2 ^ k * i0 < x.length by omega)]
        · rw [ha i0 hi0 hact]
          simp only [List.getD_eq_getElem?_getD]
          rw [List.getElem?_set_ne (hne i0 hi0), List.getElem?_set_ne (hne' i0)]
      · intro j hj
        rw [hu j (fun i1 hi1 h1 => hj i1 (List.mem_cons_of_mem _ hi1) h1)]
        have := hj i (List.mem_cons_self _ _) hi
        simp only [List.getD_eq_getElem?_getD]
        rw [List.getElem?_set_ne (fun h => this h.symm)]
    · have hstep := stride_accum_eq k r i x hk hb hmax
      rw [if_neg hi] at hstep
      obtain ⟨x', hl, hlen, ha, hu⟩ := ih hnd.2 x hb hmax
      refine ⟨x', ?_, hlen, ?_, ?_⟩
      · simp only [launch, List.foldlM_cons, hstep, Option.bind_eq_bind, Option.some_bind]
        exact hl
      · intro i0 hi0 hact
        rcases List.mem_cons.mp hi0 with rfl | hi0
        · exact absurd hact hi
        · exact ha i0 hi0 hact
      · intro j hj
        exact hu j (fun i1 hi1 h1 => hj i1 (List.mem_cons_of_mem _ hi1) h1)

theorem sumStride_one (s : Nat) (x : List Int) :
    sumStride s 1 x = ((x.getD 0 0 : Int) : ZMod (2 ^ 32)) := by
  simp [sumStride]

theorem strategy5_host_loop_sum (sched : Schedule) (hs : sched.Valid) (nwi : Nat) :
    ∀ (fuel k r : Nat) (x : List Int), 1 ≤ r → r ≤ fuel + 1 → r ≤ 2 * nwi →
      (r - 1) * 2 ^ k < x.length → x.length < 2 ^ 31 →
      (∀ j < r, isInt32 (x.getD (j * 2 ^ k) 0)) →
      ∃ x', host_loop sched nwi fuel k r x = .ok x' ∧ 0 < x'.length ∧
        isInt32 (x'.getD 0 0) ∧ ((x'.getD 0 0 : Int) : ZMod (2 ^ 32)) = sumStride (2 ^ k) r x := by
  intro fuel
  induction fuel with
  | zero =>
    intro k r x h1 hfuel _ hb _ hint
    have hr : r = 1 := by omega
    subst hr
    refine ⟨x, by simp [host_loop], by omega, ?_, (sumStride_one _ x).symm⟩
    simpa using hint 0 (by omega)
  | succ fuel ih =>
    intro k r x h1 hfuel hnwi hb hmax hint
    have hS : 0 < 2 ^ k := Nat.pos_pow_of_pos k (by decide)
    by_cases hr : r > 1
    · have hk : k < 31 := by
        by_contra hk
        have h2 : 2 ^ 31 ≤ 2 ^ k := Nat.pow_le_pow_right (by decide) (by omega)
        have h3 : 1 * 2 ^ k ≤ (r - 1) * 2 ^ k := Nat.mul_le_mul_right _ (by omega)
        omega
      have hrn : r ≤ x.length := by
        have h3 : (r - 1) * 1 ≤ (r - 1) * 2 ^ k := Nat.mul_le_mul_left _ hS
        omega
      have hceil : ceil_half r = (r + 1) / 2 := ceil_half_eq (by omega)
      have hnd : (sched k nwi).Nodup := (hs k nwi).nodup_iff.mpr (List.nodup_range nwi)
      obtain ⟨x', hl, hlen, ha, hu⟩ := stride_launch_accum k r hk (sched k nwi) hnd x hb hmax
      have hpow : 2 ^ (k + 1) = 2 * 2 ^ k := by ring
      have hpair : ∀ i, 2 * i + 1 < r → x'.getD (i * 2 ^ (k + 1)) 0
          = addInt32 (x.getD (2 * i * 2 ^ k) 0) (x.getD ((2 * i + 1) * 2 ^ k) 0) := by
        intro i hi
        have hmem : i ∈ sched k nwi := by
          rw [mem_valid_schedule hs]
          omega
        have e1 : i * 2 ^ (k + 1) = 2 * 2 ^ k * i := by rw [hpow]; ring
        have e2 : 2 * i * 2 ^ k = 2 * 2 ^ k * i := by ring
        have e3 : (2 * i + 1) * 2 ^ k = 2 * 2 ^ k * i + 2 ^ k := by ring
        rw [e1, e2, e3]
        exact ha i hmem hi
      have hodd : ∀ i, 2 * i + 1 = r → x'.getD (i * 2 ^ (k + 1)) 0
          = x.getD (2 * i * 2 ^ k) 0 := by
        intro i hi
        have e1 : i * 2 ^ (k + 1) = 2 * 2 ^ k * i := by rw [hpow]; ring
        have e2 : 2 * i * 2 ^ k = 2 * 2 ^ k * i := by ring
        rw [e1, e2]
        apply hu
        intro i0 _ hact he
        have : i = i0 := Nat.eq_of_mul_eq_mul_left (by omega : 0 < 2 * 2 ^ k) he
        omega
      have hb' : ((r + 1) / 2 - 1) * 2 ^ (k + 1) < x'.length := by
        have h3 : ((r + 1) / 2 - 1) * 2 * 2 ^ k ≤ (r - 1) * 2 ^ k :=
          Nat.mul_le_mul_right _ (by omega)
        have e : ((r + 1) / 2 - 1) * 2 ^ (k + 1) = ((r + 1) / 2 - 1) * 2 * 2 ^ k := by
          rw [hpow]; ring
        omega
      obtain ⟨x'', hres, hpos, hint', hsum⟩ :=
        ih (k + 1) ((r + 1) / 2) x' (by omega) (by omega) (by omega) hb' (by omega)
          (fun j hj => by
            by_cases hj2 : 2 * j + 1 < r
            · rw [hpair j hj2]
              exact addInt32_isInt32 _ _
            · rw [hodd j (by omega)]
              exact hint (2 * j) (by omega))
      refine ⟨x'', ?_, hpos, hint', ?_⟩
      · simp only [host_loop, hr, if_true, hl, hceil]
        exact hres
      · rw [hsum]
        unfold sumStride
        apply sum_halve (fun j => ((x.getD (j * 2 ^ k) 0 : Int) : ZMod (2 ^ 32)))
          (fun i => ((x'.getD (i * 2 ^ (k + 1)) 0 : Int) : ZMod (2 ^ 32))) r
        · intro i hi
          simp only [hpair i hi, addInt32_cast]
        · intro i hi
          simp only [hodd i hi]
    · have hr1 : r = 1 := by omega
      subst hr1
      refine ⟨x, by simp [host_loop], by omega, ?_, (sumStride_one _ x).symm⟩
      simpa using hint 0 (by omega)

/-- C8: accum_strategy5, reducing in place with stride `2^iteration` and no
separate handling of odd counts, computes the accumulation. For every vector
`x` of `n >= 1` ints (`n` an `int`) and every order in which the work-items of
each launch execute, no access is out of bounds, the host loop ends, and
`x_h[0]` is `correct_out`, the wrap-around sum of `x`. -/
theorem strategy5_correct (sched : Schedule) (x : List Int) (hs : sched.Valid)
    (hn : 1 ≤ x.length) (hmax : x.length < 2 ^ 31) (hint : ∀ v ∈ x, isInt32 v) :
    main sched x = .ok (correct_out x) := by
  have hint' : ∀ j < x.length, isInt32 (x.getD (j * 2 ^ 0) 0) := by
    intro j hj
    rw [pow_zero, mul_one, List.getD_eq_getElem?_getD, List.getElem?_eq_getElem hj]
    exact hint _ (List.getElem_mem hj)
  have hnwi : toUnsigned (ceil_half x.length) = (x.length + 1) / 2 := by
    rw [ceil_half_eq (by omega), toUnsigned_eq (by omega)]
  obtain ⟨x', hres, hpos, hx0, hsum⟩ :=
    strategy5_host_loop_sum sched hs ((x.length + 1) / 2) x.length 0 x.length x hn (by omega) (by omega)
      (by omega) hmax hint'
  have hsum' : sumStride (2 ^ 0) x.length x = sumFirst x.length x := by
    simp [sumStride, sumFirst]
  have hfinal : x'.getD 0 0 = correct_out x :=
    eq_of_cast_eq hx0 (correct_out_isInt32 x) (by rw [hsum, hsum', correct_out_cast])
  simp only [main, hnwi, hres, front_eq hpos, hfinal]

/-- Witness for C8: a vector of five ints, work-items in decreasing order. -/
theorem strategy5_correct_witness :
    main (fun _ n => (List.range n).reverse) [3, -7, 10, 2147483647, 5]
      = .ok (correct_out [3, -7, 10, 2147483647, 5]) :=
  strategy5_correct (fun _ n => (List.range n).reverse) [3, -7, 10, 2147483647, 5]
    (fun _ _ => List.reverse_perm _) (by decide) (by decide) (by decide)

end accum_strategy5

namespace Sycl

theorem roundToSignificand_pos (p n : Nat) (hp : 1 ≤ p) (hn : 1 ≤ n) :
    1 ≤ roundToSignificand p n := by
  unfold roundToSignificand
  split
  · exact hn
  · have hle : 2 ^ (Nat.log2 n + 1 - p) ≤ n :=
      le_trans (Nat.pow_le_pow_right (by decide) (by omega)) (Nat.log2_self_le (by omega))
    have hpos : 0 < 2 ^ (Nat.log2 n + 1 - p) := Nat.pos_pow_of_pos _ (by decide)
    have hq : 1 ≤ n / 2 ^ (Nat.log2 n + 1 - p) := (Nat.one_le_div_iff hpos).mpr hle
    have h1 : 1 ≤ n / 2 ^ (Nat.log2 n + 1 - p) * 2 ^ (Nat.log2 n + 1 - p) :=
      Nat.mul_pos hq hpos
    have h2 : 1 ≤ (n / 2 ^ (Nat.log2 n + 1 - p) + 1) * 2 ^ (Nat.log2 n + 1 - p) :=
      Nat.mul_pos (by omega) hpos
    simp only
    split
    · exact h1
    · split
      · exact h2
      · split
        · exact h1
        · exact h2

theorem launch_length {body : Nat → List Int → Option (List Int)}
    (hbody : ∀ i m m', body i m = some m' → m'.length = m.length) :
    ∀ (order : List Nat) (m m' : List Int), launch body order m = some m' →
      m'.length = m.length := by
  intro order
  induction order with
  | nil =>
    intro m m' h
    simp only [launch, List.foldlM_nil] at h
    cases h
    rfl
  | cons i rest ih =>
    intro m m' h
    simp only [launch, List.foldlM_cons] at h
    cases hb : body i m with
    | none => simp [hb] at h
    | some m1 =>
      rw [hb] at h
      rw [ih m1 m' h, hbody i m m1 hb]

theorem launch_none {body : Nat → List Int → Option (List Int)} (len i : Nat)
    (hbody : ∀ j m m', body j m = some m' → m'.length = m.length)
    (hfail : ∀ m, m.length = len → body i m = none) :
    ∀ (order : List Nat) (m : List Int), i ∈ order → m.length = len →
      launch body order m = none := by
  intro order
  induction order with
  | nil => intro m h; cases h
  | cons j rest ih =>
    intro m hmem hlen
    simp only [launch, List.foldlM_cons]
    cases hb : body j m with
    | none => rfl
    | some m1 =>
      have hj : i ≠ j := by
        rintro rfl
        rw [hfail m hlen] at hb
        cases hb
      have hrest : i ∈ rest := by
        rcases List.mem_cons.mp hmem with h | h
        · exact absurd h hj
        · exact h
      exact ih m1 hrest (by rw [hbody j m m1 hb, hlen])

end Sycl

namespace accum_strategy6_2

open Sycl

theorem accum_load_length (gir : Nat) (x_d : List Int) (g : Nat) :
    ∀ i m m', accum_load gir x_d g i m = some m' → m'.length = m.length := by
  intro i m m' h
  unfold accum_load at h
  simp only [Option.bind_eq_bind, Option.bind_eq_some] at h
  obtain ⟨m1, h1, h2⟩ := h
  have hl1 := store_length h1
  split at h2
  · simp only [Option.bind_eq_some] at h2
    obtain ⟨a, _, h3⟩ := h2
    rw [store_length h3, hl1]
  · split at h2
    · simp only [Option.bind_eq_some] at h2
      obtain ⟨a, _, b, _, h3⟩ := h2
      rw [store_length h3, hl1]
    · cases h2
      exact hl1

theorem accum_step_length (stride lir : Nat) :
    ∀ i m m', accum_step stride lir i m = some m' → m'.length = m.length := by
  intro i m m' h
  unfold accum_step at h
  simp only at h
  split at h
  · simp only [Option.bind_eq_bind, Option.bind_eq_some] at h
    obtain ⟨a, _, b, _, h3⟩ := h
    exact store_length h3
  · cases h
    rfl

/-- In the first iteration of the in-group loop (`stride = 1`,
`local_inputs_remaining = 64`) the work-item `local_id = 16` passes the guard
and reads `x_local[32]`, outside the 32-element local array. -/
theorem accum_step_16_out_of_bounds (m : List Int) (hm : m.length = work_items_per_group) :
    accum_step 1 inputs_per_group 16 m = none := by
  have hbase : wrapInt32 32 = 32 := by decide
  have hidx : toSizeT 32 = 32 := by decide
  have h32 : m[32]? = none := List.getElem?_eq_none (by rw [hm]; decide)
  simp [accum_step, hbase, hidx, inputs_per_group, work_items_per_group, load, h32]

theorem accum_group_out_of_bounds (order : Nat → List Nat)
    (horder : ∀ phase, List.Perm (order phase) (List.range work_items_per_group))
    (gir : Nat) (x_d : List Int) (g : Nat) (y_d : List Int) :
    accum_group order gir x_d g y_d = .error .out_of_bounds := by
  unfold accum_group
  simp only
  cases hload : launch (accum_load gir x_d g) (order 0) (List.replicate work_items_per_group 0) with
  | none => rfl
  | some x_local =>
    have hlen : x_local.length = work_items_per_group := by
      rw [launch_length (accum_load_length gir x_d g) _ _ _ hload, List.length_replicate]
    have hmem : 16 ∈ order 1 := by
      rw [(horder 1).mem_iff, List.mem_range]
      decide
    have hnone : launch (accum_step 1 inputs_per_group) (order 1) x_local = none :=
      launch_none work_items_per_group 16 (accum_step_length 1 inputs_per_group)
        accum_step_16_out_of_bounds (order 1) x_local hmem hlen
    have hloop : group_loop order inputs_per_group 1 1 inputs_per_group x_local
        = .error .out_of_bounds := by
      have h64 : inputs_per_group = 63 + 1 := rfl
      conv => lhs; arg 2; rw [h64]
      simp only [group_loop, hnone]
      rfl
    simp only [hloop]

theorem launch_groups_out_of_bounds (sched : GroupSchedule) (hs : sched.Valid)
    (iteration num_groups gir : Nat) (x_d y_d : List Int) (hg : 1 ≤ num_groups) :
    launch_groups sched iteration num_groups gir x_d y_d = .error .out_of_bounds := by
  unfold launch_groups
  cases hord : sched.groups iteration num_groups with
  | nil =>
    have h0 : 0 ∈ sched.groups iteration num_groups := by
      rw [(hs.1 iteration num_groups).mem_iff, List.mem_range]
      omega
    rw [hord] at h0
    cases h0
  | cons g rest =>
    rw [List.foldlM_cons, accum_group_out_of_bounds _ (hs.2 iteration g)]
    rfl

/-- C10: for every vector `x` of `n >= 2` ints and every order of groups and
work-items, the first launch of accum_strategy6_2 accesses `x_local` out of
bounds: the in-group loop starts from `inputs_per_group = 64` although
`x_local` has `work_items_per_group = 32` elements. No group writes the sum of
its inputs to `y_d`, and `main` yields no `x_h[0]`. -/
theorem strategy6_2_out_of_bounds (sched : GroupSchedule) (x : List Int) (hs : sched.Valid)
    (hn : 2 ≤ x.length) : main sched x = .error .out_of_bounds := by
  obtain ⟨fuel, hfuel⟩ : ∃ fuel, x.length = fuel + 1 := ⟨x.length - 1, by omega⟩
  have hgroups : 1 ≤ ceil_div_float x.length inputs_per_group := by
    have := roundToSignificand_pos 24 x.length (by decide) (by omega)
    unfold ceil_div_float inputs_per_group work_items_per_group
    omega
  have hgt : x.length > 1 := by omega
  have hloop : host_loop sched x.length 0 x.length x
      (List.replicate (ceil_div_float x.length inputs_per_group) 0)
      = .error .out_of_bounds := by
    conv => lhs; arg 2; rw [hfuel]
    simp only [host_loop, hgt, if_true,
      launch_groups_out_of_bounds sched hs 0 _ x.length _ _ hgroups]
  simp only [main, hloop]

/-- Witness for C10: the vector `[1, 2]`, groups and work-items in increasing
order. -/
theorem strategy6_2_out_of_bounds_witness :
    main GroupSchedule.inOrder [1, 2] = .error .out_of_bounds :=
  strategy6_2_out_of_bounds GroupSchedule.inOrder [1, 2]
    ⟨fun _ _ => List.Perm.refl _, fun _ _ _ => List.Perm.refl _⟩ (by decide)

/-- A concrete run of accum_strategy6_2 on the vector `[1, 2]` with groups and
work-items in increasing order: the load phase of group 0 leaves
`x_local[0] = 3`, and the first in-group iteration then faults at
`local_id = 16`. -/
theorem strategy6_2_one_two_out_of_bounds :
    launch (accum_load 2 [1, 2] 0) (List.range work_items_per_group)
        (List.replicate work_items_per_group 0)
      = some (3 :: List.replicate 31 0) ∧
    accum_step 1 inputs_per_group 16 (3 :: List.replicate 31 0) = none ∧
    main GroupSchedule.inOrder [1, 2] = .error .out_of_bounds := by
  refine ⟨by decide, by decide, rfl⟩

end accum_strategy6_2

/-! ## Part 5: command-line handling -/

namespace Sycl

theorem toSizeT_neg {z : Int} (hz : isInt32 z) (hneg : z < 0) :
    toSizeT z = (2 ^ 64 + z).toNat ∧ 2 ^ 64 - 2 ^ 31 ≤ toSizeT z := by
  unfold isInt32 at hz
  unfold toSizeT
  omega

theorem toSizeT_nonneg {z : Int} (hz : isInt32 z) (h0 : 0 ≤ z) : toSizeT z = z.toNat := by
  unfold isInt32 at hz
  unfold toSizeT
  omega

end Sycl

namespace accum_strategy1_bad

open Sycl

/-- With `int vector_size`, `main` of accum_strategy1_bad prints the usage and
returns 1 for every argument count other than one and for every argument that
`atoi` converts to zero or a negative integer. -/
theorem startup_rejects_nonpositive (atoi : String → Int) (argv : List String)
    (h : argv.length ≠ 2 ∨ atoi (argv.getD 1 "") ≤ 0) :
    startup atoi argv = .usage_return_1 argv[0]? := by
  unfold startup
  rcases h with h | h
  · rw [if_pos h]
  · split
    · rfl
    · simp only [h, if_true]

end accum_strategy1_bad

namespace accum_strategy2_bad

open Sycl

/-- With `size_t vector_size`, `main` prints the usage and returns 1 for every
argument count other than one and for an argument that `atoi` converts to
zero. -/
theorem startup_rejects_zero (atoi : String → Int) (argv : List String)
    (h : argv.length ≠ 2 ∨ atoi (argv.getD 1 "") = 0) :
    startup atoi argv = .usage_return_1 argv[0]? := by
  unfold startup
  rcases h with h | h
  · rw [if_pos h]
  · split
    · rfl
    · simp only [h]
      rfl

/-- With `size_t vector_size`, an argument that `atoi` converts to a negative
`int` passes the test `vector_size <= 0`: `main` goes on with
`vector_size = 2^64 + atoi(argv[1])`, at least `2^64 - 2^31`. -/
theorem startup_accepts_negative (atoi : String → Int) (name arg : String)
    (hint : isInt32 (atoi arg)) (hneg : atoi arg < 0) :
    startup atoi [name, arg] = .run (2 ^ 64 + atoi arg).toNat ∧
    2 ^ 64 - 2 ^ 31 ≤ (2 ^ 64 + atoi arg).toNat := by
  obtain ⟨h1, h2⟩ := toSizeT_neg hint hneg
  have hpos : ¬ toSizeT (atoi arg) ≤ 0 := by omega
  refine ⟨?_, by omega⟩
  simp only [startup, List.length_cons, List.length_nil, List.getD_cons_succ,
    List.getD_cons_zero]
  simp [hpos, h1]
  unfold isInt32 at hint
  omega

end accum_strategy2_bad

namespace usm_vs_buffers1

open Sycl

theorem startup_eq_accum_strategy2_bad : startup = accum_strategy2_bad.startup := rfl

/-- C11: on the command line `accum_strategy2_bad -1` (and `usm_vs_buffers1 -1`)
`atoi` gives `-1`, the `size_t` variable `vector_size` becomes `2^64 - 1`, the
test `vector_size <= 0` is false, and `main` goes on to allocate its vectors
instead of printing the usage; accum_strategy1_bad, which declares
`int vector_size`, prints the usage and returns 1 on the same arguments. -/
theorem startup_negative_size_not_rejected :
    Sycl.atoi "-1" = -1 ∧
    accum_strategy2_bad.startup Sycl.atoi ["accum_strategy2_bad", "-1"]
      = .run 18446744073709551615 ∧
    startup Sycl.atoi ["usm_vs_buffers1", "-1"] = .run 18446744073709551615 ∧
    accum_strategy1_bad.startup Sycl.atoi ["accum_strategy1_bad", "-1"]
      = .usage_return_1 (some "accum_strategy1_bad") := by
  decide

end usm_vs_buffers1

/-! ## Part 6: the matrix class, the local array and the bad strategies -/

namespace matrix_add_dynamic3

open Sycl

/-- C13: for a `Matrix` whose `num_rows` is at most `2^64 - 2^31` and whose
`num_rows * num_cols` elements fit `size_t` (both hold for the positive `int`
sizes `main` passes), and every `int` `i`: `operator[](i)` throws the
`runtime_error` "Invalid row accessed" exactly when `i` is not in
`[0, num_rows)`, negative `i` included; otherwise it returns the offset
`i*num_cols`, and `m[i][j]` with `j < num_cols` is the offset
`i*num_cols + j`, below `num_rows*num_cols`. -/
theorem matrix_row_checks_bounds (m : Matrix) (i : Int) (hi : isInt32 i)
    (hrows : m.num_rows ≤ 2 ^ 64 - 2 ^ 31) (hsize : m.num_rows * m.num_cols < 2 ^ 64) :
    (m.row i = .error "Invalid row accessed" ↔ ¬ (0 ≤ i ∧ i < (m.num_rows : Int))) ∧
    ((∃ what, m.row i = .error what) ↔ ¬ (0 ≤ i ∧ i < (m.num_rows : Int))) ∧
    (0 ≤ i → i < (m.num_rows : Int) →
      m.row i = .ok (i.toNat * m.num_cols) ∧
      ∀ j, j < m.num_cols →
        m.elem i j = .ok (i.toNat * m.num_cols + j) ∧
        i.toNat * m.num_cols + j < m.num_rows * m.num_cols) := by
  by_cases hin : 0 ≤ i ∧ i < (m.num_rows : Int)
  · have hsz : toSizeT i = i.toNat := toSizeT_nonneg hi hin.1
    have hlt : i.toNat < m.num_rows := by omega
    have hnot : ¬ i.toNat ≥ m.num_rows := by omega
    have hmul : (i.toNat + 1) * m.num_cols ≤ m.num_rows * m.num_cols :=
      Nat.mul_le_mul_right _ hlt
    have hexp : (i.toNat + 1) * m.num_cols = i.toNat * m.num_cols + m.num_cols := by ring
    have hmod : i.toNat * m.num_cols % 2 ^ 64 = i.toNat * m.num_cols :=
      Nat.mod_eq_of_lt (by omega)
    have hrow : m.row i = .ok (i.toNat * m.num_cols) := by
      simp only [Matrix.row, hsz, if_neg hnot, hmod]
    refine ⟨?_, ?_, fun _ _ => ⟨hrow, fun j hj => ⟨?_, by omega⟩⟩⟩
    · simp [hrow, hin]
    · simp [hrow, hin]
    · simp only [Matrix.elem, hrow]
  · have hge : toSizeT i ≥ m.num_rows := by
      by_cases hneg : i < 0
      · have := (toSizeT_neg hi hneg).2
        omega
      · have hsz : toSizeT i = i.toNat := toSizeT_nonneg hi (by omega)
        omega
    have hrow : m.row i = .error "Invalid row accessed" := by
      simp only [Matrix.row, if_pos hge]
    refine ⟨?_, ?_, fun h0 hlt => absurd ⟨h0, hlt⟩ hin⟩
    · simp [hrow, hin]
    · simp [hrow, hin]

/-- Witness for C13: a 3 by 4 matrix and row 2. -/
theorem matrix_row_checks_bounds_witness :
    (⟨3, 4⟩ : Matrix).row 2 = .ok (2 * 4) ∧
    ∀ j, j < 4 → (⟨3, 4⟩ : Matrix).elem 2 j = .ok (2 * 4 + j) ∧ 2 * 4 + j < 3 * 4 :=
  (matrix_row_checks_bounds ⟨3, 4⟩ 2 (by decide) (by decide) (by decide)).2.2
    (by decide) (by decide)

end matrix_add_dynamic3

namespace accum_strategy6_1_bad

open Sycl

/-- What does hold for the in-group loop: while `stride * local_inputs_remaining`
is at most `inputs_per_group = 64` (it is 64 in every iteration), the indices
`base` and `base + stride` of a work-item that passes the guard are below 64,
twice the size of `x_local`. -/
theorem step_index_lt_inputs_per_group (stride local_inputs_remaining local_id : Nat)
    (hprod : stride * local_inputs_remaining ≤ inputs_per_group)
    (hguard : 2 * local_id + 1 < local_inputs_remaining) :
    2 * stride * local_id + stride < inputs_per_group := by
  by_cases hs : stride = 0
  · subst hs
    simp [inputs_per_group, work_items_per_group]
  · have h1 : stride * (2 * local_id + 1) < stride * local_inputs_remaining :=
      Nat.mul_lt_mul_of_pos_left hguard (Nat.pos_of_ne_zero hs)
    have h2 : stride * (2 * local_id + 1) = 2 * stride * local_id + stride := by ring
    omega

/-- C14: in the first iteration of the in-group loop (`stride = 1`,
`local_inputs_remaining = 64`) the work-item `local_id = 16` passes the guard
`2*16 + 1 < 64` and uses the indices `base = 32` and `base + stride = 33`: on
the 32-element `x_local` the access is out of bounds, and on an array with two
more elements it is exactly the elements 32 and 33 that are read and element
32 that is written. The same holds in accum_strategy6_1_bad and
accum_strategy6_2. -/
theorem x_local_index_reaches_32 :
    work_items_per_group = 32 ∧ inputs_per_group = 64 ∧
    accum_strategy6_2.work_items_per_group = 32 ∧ accum_strategy6_2.inputs_per_group = 64 ∧
    (16 < 32 ∧ 2 * 16 + 1 < 64 ∧ ¬ (2 * 1 * 16 < 32)) ∧
    accum_step 1 inputs_per_group 16 (List.replicate work_items_per_group 0) = none ∧
    accum_step 1 inputs_per_group 16 (List.replicate work_items_per_group 0 ++ [5, 7])
      = some (List.replicate work_items_per_group 0 ++ [12, 7]) ∧
    accum_strategy6_2.accum_step 1 accum_strategy6_2.inputs_per_group 16
        (List.replicate accum_strategy6_2.work_items_per_group 0) = none ∧
    accum_strategy6_2.accum_step 1 accum_strategy6_2.inputs_per_group 16
        (List.replicate accum_strategy6_2.work_items_per_group 0 ++ [5, 7])
      = some (List.replicate accum_strategy6_2.work_items_per_group 0 ++ [12, 7]) := by
  decide

end accum_strategy6_1_bad

namespace accum_strategy2_bad

open Sycl

end accum_strategy2_bad

namespace accum_strategy1_bad

open Sycl

/-- C16: accum_strategy1_bad fails when a work-item runs its whole loop before
another one starts. On the vector `[1, 2, 3]` with the work-items run to
completion in the order 0, 1 the final `x_h[0]` is `5`, and in the order 1, 0
it is `7`, while the sum is `6`. -/
theorem strategy1_bad_fails :
    ∃ (x : List Int) (sched : Schedule),
      x.length = 3 ∧ (∀ v ∈ x, isInt32 v) ∧ sched.Valid ∧
      (∃ v, main sched x = .ok v ∧ v ≠ correct_out x) ∧
      main Schedule.inOrder [1, 2, 3] = .ok 5 ∧
      main (fun _ n => (List.range n).reverse) [1, 2, 3] = .ok 7 ∧
      correct_out [1, 2, 3] = 6 := by
  refine ⟨[1, 2, 3], Schedule.inOrder, rfl, by decide, fun _ _ => List.Perm.refl _,
    ⟨5, rfl, by decide⟩, rfl, rfl, by decide⟩

end accum_strategy1_bad

/-! ## Part 7: the copy functions and integer SAXPY -/

namespace Sycl

/-- A launch whose work-item `i` stores `f i` at index `i` of an `n`-element
array, run in any order over work-items below `n`: every index in `order`
holds `f`, every other index is unchanged. -/
theorem launch_pointwise {α : Type} (body : Nat → List α → Option (List α)) (f : Nat → α)
    (n : Nat) (hbody : ∀ i z, i < n → z.length = n → body i z = some (z.set i (f i))) :
    ∀ (order : List Nat) (z : List α), (∀ i ∈ order, i < n) → z.length = n →
      ∃ z', launch body order z = some z' ∧ z'.length = n ∧
        ∀ j, z'[j]? = if j ∈ order then some (f j) else z[j]? := by
  intro order
  induction order with
  | nil => intro z _ hz; exact ⟨z, rfl, hz, fun j => by simp⟩
  | cons i rest ih =>
    intro z hord hz
    have hi : i < n := hord i (List.mem_cons_self _ _)
    obtain ⟨z', hl, hlen, hget⟩ := ih (z.set i (f i))
      (fun k hk => hord k (List.mem_cons_of_mem _ hk)) (by simpa using hz)
    refine ⟨z', ?_, hlen, ?_⟩
    · simp only [launch, List.foldlM_cons, hbody i z hi hz, Option.bind_eq_bind,
        Option.some_bind]
      exact hl
    · intro j
      rw [hget j]
      by_cases hj : j = i
      · subst hj
        have : j < z.length := by omega
        simp [List.getElem?_set_self, this]
      · have hne : i ≠ j := fun h => hj h.symm
        simp [hj, List.getElem?_set_ne hne]

/-- The launch of `launch_pointwise` with each of the `n` work-items run once
yields the array with `f j` at every index `j`. -/
theorem launch_pointwise_perm {α : Type} (body : Nat → List α → Option (List α))
    (f : Nat → α) (n : Nat)
    (hbody : ∀ i z, i < n → z.length = n → body i z = some (z.set i (f i)))
    (order : List Nat) (horder : order.Perm (List.range n)) (z : List α) (hz : z.length = n) :
    launch body order z = some ((List.range n).map f) := by
  have hmem : ∀ i, i ∈ order ↔ i < n := fun i => by rw [horder.mem_iff, List.mem_range]
  obtain ⟨z', hl, hlen, hget⟩ :=
    launch_pointwise body f n hbody order z (fun i hi => (hmem i).mp hi) hz
  rw [hl]
  congr 1
  apply List.ext_getElem?
  intro j
  rw [hget j, List.getElem?_map]
  by_cases hj : j < n
  · simp [(hmem j).mpr hj, List.getElem?_range hj]
  · have h1 : z[j]? = none := List.getElem?_eq_none (by omega)
    have h2 : (List.range n)[j]? = none := List.getElem?_eq_none (by simp; omega)
    simp [mt (hmem j).mp hj, h1, h2]

theorem map_getD_range (x : List Int) : (List.range x.length).map (fun j => x.getD j 0) = x := by
  apply List.ext_getElem?
  intro j
  rw [List.getElem?_map]
  by_cases hj : j < x.length
  · simp [List.getElem?_range hj, List.getD_eq_getElem?_getD, List.getElem?_eq_getElem hj]
  · have h1 : x[j]? = none := List.getElem?_eq_none (by omega)
    have h2 : (List.range x.length)[j]? = none := List.getElem?_eq_none (by simp; omega)
    simp [h1, h2]

end Sycl

namespace usm_vs_buffers1

open Sycl

theorem copy_kernel_eq (x : List Int) (i : Nat) (z : List Int) (hi : i < x.length)
    (hz : z.length = x.length) : copy_kernel x i z = some (z.set i (x.getD i 0)) := by
  have hiz : i < z.length := by omega
  simp [copy_kernel, load, store, List.getElem?_eq_getElem hi, List.getD_eq_getElem?_getD, hiz]

theorem launch_copy_kernel (x : List Int) (order : List Nat)
    (horder : order.Perm (List.range x.length)) (z : List Int) (hz : z.length = x.length) :
    launch (copy_kernel x) order z = some x := by
  have h := launch_pointwise_perm (copy_kernel x) (fun j => x.getD j 0) x.length
    (fun i z hi hz => copy_kernel_eq x i z hi hz) order horder z hz
  rw [h, map_getD_range]

/-- What holds of `copy_buffer`: it throws the `runtime_error` "Vectors have
different sizes" exactly when the sizes differ, and then leaves `x_h` and
`y_h` as they were; when the sizes are equal it returns normally with `y_h`
equal to `x_h` and `x_h` unchanged, whatever the order of the work-items. -/
theorem copy_buffer_contract (order : List Nat) (x_h y_h : List Int)
    (horder : order.Perm (List.range x_h.length)) :
    ((∃ what, (copy_buffer order x_h y_h).1 = .error (.runtime_error what))
        ↔ x_h.length ≠ y_h.length) ∧
    (x_h.length ≠ y_h.length →
      copy_buffer order x_h y_h
        = (.error (.runtime_error "Vectors have different sizes"), x_h, y_h)) ∧
    (x_h.length = y_h.length → copy_buffer order x_h y_h = (.ok (), x_h, x_h)) := by
  by_cases hlen : x_h.length = y_h.length
  · have hb : copy_buffer order x_h y_h = (.ok (), x_h, x_h) := by
      simp only [copy_buffer, hlen, ne_eq, not_true_eq_false, if_false]
      rw [launch_copy_kernel x_h order horder y_h hlen.symm]
    refine ⟨?_, fun h => absurd hlen h, fun _ => hb⟩
    simp [hb, hlen]
  · have hb : copy_buffer order x_h y_h
        = (.error (.runtime_error "Vectors have different sizes"), x_h, y_h) := by
      simp [copy_buffer, hlen]
    refine ⟨?_, fun _ => hb, fun h => absurd h hlen⟩
    simp [hb, hlen]

/-- What holds of `copy_usm_explicit` in every order of its commands: for
vectors of different sizes it throws the `runtime_error` before anything is
submitted and leaves `x_h` and `y_h` as they were, and it never changes
`x_h`. -/
theorem copy_usm_explicit_throws (garbage_x garbage_y : Nat → Int) (commands : List Command)
    (order : List Nat) (x_h y_h : List Int) :
    (x_h.length ≠ y_h.length →
      copy_usm_explicit garbage_x garbage_y commands order x_h y_h
        = (.error (.runtime_error "Vectors have different sizes"), x_h, y_h)) ∧
    (x_h.length = y_h.length →
      ¬ ∃ what, (copy_usm_explicit garbage_x garbage_y commands order x_h y_h).1
        = .error (.runtime_error what)) ∧
    (copy_usm_explicit garbage_x garbage_y commands order x_h y_h).2.1 = x_h := by
  by_cases hlen : x_h.length = y_h.length
  · refine ⟨fun h => absurd hlen h, fun _ => ?_, ?_⟩
    · simp only [copy_usm_explicit, hlen, ne_eq, not_true_eq_false, if_false]
      split <;> simp
    · simp only [copy_usm_explicit, hlen, ne_eq, not_true_eq_false, if_false]
      split <;> rfl
  · refine ⟨fun _ => ?_, fun h => absurd h hlen, ?_⟩
    · simp [copy_usm_explicit, hlen]
    · simp [copy_usm_explicit, hlen]

/-- What holds of `copy_usm_explicit` when its commands do take effect in the
order of submission: for vectors of equal size it returns normally with `y_h`
equal to `x_h`, whatever the order of the work-items and the initial contents
of the device allocations. -/
theorem copy_usm_explicit_submission_order (garbage_x garbage_y : Nat → Int)
    (order : List Nat) (x_h y_h : List Int) (horder : order.Perm (List.range x_h.length))
    (hlen : x_h.length = y_h.length) :
    copy_usm_explicit garbage_x garbage_y submission_order order x_h y_h
      = (.ok (), x_h, x_h) := by
  have hxd : memcpy (malloc_device garbage_x x_h.length) x_h x_h.length = x_h := by
    simp [memcpy, malloc_device]
  have hk := launch_copy_kernel x_h order horder (malloc_device garbage_y x_h.length)
    (by simp [malloc_device])
  simp only [copy_usm_explicit, hlen, ne_eq, not_true_eq_false, if_false, submission_order,
    List.foldlM_cons, List.foldlM_nil, run_command, Option.bind_eq_bind, Option.some_bind]
  rw [← hlen, hxd, hk]
  simp [memcpy, hlen]

/-- C12: `copy_usm_explicit` does not make `y_h` equal to `x_h` in every order
in which the out-of-order queue may run its three commands. On
`x_h = [4, -5, 6]`, `y_h = [0, 0, 0]`, with device memory that initially
holds 9 (`x_d`) and 8 (`y_d`): when the kernel runs before the copy to the
device, `y_h` ends as `[9, 9, 9]`; when the copy back runs first, `y_h` ends
as `[8, 8, 8]`. The size check, `copy_buffer`, and the submission order all
give `[4, -5, 6]`. -/
theorem copy_usm_explicit_unordered :
    List.Perm [Command.kernel, .copy_to_device, .copy_to_host] submission_order ∧
    copy_usm_explicit (fun _ => 9) (fun _ => 8) [.kernel, .copy_to_device, .copy_to_host]
        [0, 1, 2] [4, -5, 6] [0, 0, 0]
      = (.ok (), [4, -5, 6], [9, 9, 9]) ∧
    List.Perm [Command.copy_to_host, .copy_to_device, .kernel] submission_order ∧
    copy_usm_explicit (fun _ => 9) (fun _ => 8) [.copy_to_host, .copy_to_device, .kernel]
        [0, 1, 2] [4, -5, 6] [0, 0, 0]
      = (.ok (), [4, -5, 6], [8, 8, 8]) ∧
    copy_usm_explicit (fun _ => 9) (fun _ => 8) submission_order [0, 1, 2] [4, -5, 6] [0, 0, 0]
      = (.ok (), [4, -5, 6], [4, -5, 6]) ∧
    copy_buffer [0, 1, 2] [4, -5, 6] [0, 0, 0] = (.ok (), [4, -5, 6], [4, -5, 6]) ∧
    copy_usm_explicit (fun _ => 9) (fun _ => 8) [.kernel, .copy_to_device, .copy_to_host]
        [0, 1, 2] [4, -5, 6] [0, 0]
      = (.error (.runtime_error "Vectors have different sizes"), [4, -5, 6], [0, 0]) := by
  refine ⟨by decide, rfl, by decide, rfl, rfl, rfl, rfl⟩

end usm_vs_buffers1

namespace saxpy_int

open Sycl

theorem roundToSignificand_small {n : Nat} (h : n < 2 ^ 24) : roundToSignificand 24 n = n := by
  unfold roundToSignificand
  rw [if_pos h]

theorem toFloat_small {n : Nat} (h : n ≤ 100) : toFloat n = n :=
  roundToSignificand_small (by omega)

/-- For integers `a`, `x`, `y` in `[0, 100]` neither the product nor the sum
is rounded, with or without contraction: `a * x + y` in `float` is the exact
integer, at most 10100. -/
theorem axpy_exact (contract : Bool) {a x y : Nat} (ha : a ≤ 100) (hx : x ≤ 100)
    (hy : y ≤ 100) :
    a * x ≤ 10000 ∧ a * x + y ≤ 10100 ∧ fmul a x = a * x ∧ fadd (fmul a x) y = a * x + y ∧
    axpy contract a x y = a * x + y := by
  have hp : a * x ≤ 100 * 100 := Nat.mul_le_mul ha hx
  have hmul : fmul a x = a * x := roundToSignificand_small (by omega)
  have hadd : fadd (fmul a x) y = a * x + y := by
    rw [hmul]
    exact roundToSignificand_small (by omega)
  refine ⟨hp, by omega, hmul, hadd, ?_⟩
  unfold axpy
  split
  · exact roundToSignificand_small (by omega)
  · exact hadd

theorem map_toFloat_small (xs : List Nat) (h : ∀ v ∈ xs, v ≤ 100) : xs.map toFloat = xs := by
  induction xs with
  | nil => rfl
  | cons v rest ih =>
    rw [List.map_cons, toFloat_small (h v (List.mem_cons_self _ _)),
      ih (fun w hw => h w (List.mem_cons_of_mem _ hw))]

theorem saxpy_eq (contract : Bool) (a : Nat) (x y : List Nat) (n i : Nat) (z : List Nat)
    (hx : x.length = n) (hy : y.length = n) (hi : i < n) (hz : z.length = n) :
    saxpy contract a x y i z = some (z.set i (axpy contract a (x.getD i 0) (y.getD i 0))) := by
  have hix : i < x.length := by omega
  have hiy : i < y.length := by omega
  have hiz : i < z.length := by omega
  simp [saxpy, List.getElem?_eq_getElem hix, List.getElem?_eq_getElem hiy,
    List.getD_eq_getElem?_getD, hiz]

theorem launch_saxpy (contract_host contract_device : Bool) (n : Nat) (order : List Nat)
    (a : Nat) (xs ys : List Nat) (ha : a ≤ 100) (hxs : ∀ v ∈ xs, v ≤ 100)
    (hys : ∀ v ∈ ys, v ≤ 100) (hlx : xs.length = n) (hly : ys.length = n)
    (horder : order.Perm (List.range n)) :
    launch (saxpy contract_device (toFloat a) (xs.map toFloat) (ys.map toFloat)) order
        (List.replicate n 0)
      = some (correct_out contract_host (toFloat a) (xs.map toFloat) (ys.map toFloat)) := by
  rw [toFloat_small ha, map_toFloat_small xs hxs, map_toFloat_small ys hys,
    launch_pointwise_perm (saxpy contract_device a xs ys)
      (fun j => axpy contract_device a (xs.getD j 0) (ys.getD j 0)) n
      (fun i z hi hz => saxpy_eq contract_device a xs ys n i z hlx hly hi hz)
      order horder (List.replicate n 0) (List.length_replicate _ _)]
  congr 1
  apply List.ext_getElem?
  intro j
  unfold correct_out
  rw [List.getElem?_map, List.getElem?_zipWith]
  by_cases hj : j < n
  · have hjx : j < xs.length := by omega
    have hjy : j < ys.length := by omega
    have hxj : xs[j] ≤ 100 := hxs _ (List.getElem_mem hjx)
    have hyj : ys[j] ≤ 100 := hys _ (List.getElem_mem hjy)
    simp only [List.getElem?_range hj, List.getElem?_eq_getElem hjx,
      List.getElem?_eq_getElem hjy, List.getD_eq_getElem?_getD, Option.map_some',
      Option.getD_some]
    rw [(axpy_exact contract_device ha hxj hyj).2.2.2.2,
      (axpy_exact contract_host ha hxj hyj).2.2.2.2]
  · have h1 : xs[j]? = none := List.getElem?_eq_none (by omega)
    have h2 : (List.range n)[j]? = none := List.getElem?_eq_none (by simp; omega)
    simp [h1, h2]

theorem log2_two_pow_24_add_one : Nat.log2 16777217 = 24 := by
  have h1 : Nat.log2 16777217 < 25 := (Nat.log2_lt (by norm_num)).mpr (by norm_num)
  have h2 : 24 ≤ Nat.log2 16777217 := (Nat.le_log2 (by norm_num)).mpr (by norm_num)
  omega

/-- Beyond `2^24` single precision does round: `2^24 + 1` is not a `float`,
and the sum of the floats `2^24` and `1` is `2^24`. -/
theorem fadd_rounds_above_two_pow_24 : fadd 16777216 1 = 16777216 := by
  unfold fadd roundToSignificand
  rw [show 16777216 + 1 = 16777217 from rfl, log2_two_pow_24_add_one]
  norm_num

/-- The list `a * x + y` over the two vectors, in exact integer arithmetic. -/
theorem zipWith_axpy_exact (contract : Bool) (a : Nat) (xs ys : List Nat) (ha : a ≤ 100)
    (hxs : ∀ v ∈ xs, v ≤ 100) (hys : ∀ v ∈ ys, v ≤ 100) :
    List.zipWith (fun x y => axpy contract a x y) xs ys
      = List.zipWith (fun x y => a * x + y) xs ys := by
  induction xs generalizing ys with
  | nil => rfl
  | cons x xs ih =>
    cases ys with
    | nil => rfl
    | cons y ys =>
      rw [List.zipWith_cons_cons, List.zipWith_cons_cons,
        (axpy_exact contract ha (hxs x (List.mem_cons_self _ _))
          (hys y (List.mem_cons_self _ _))).2.2.2.2,
        ih ys (fun v hv => hxs v (List.mem_cons_of_mem _ hv))
          (fun v hv => hys v (List.mem_cons_of_mem _ hv))]

theorem correct_out_exact (contract : Bool) (a : Nat) (xs ys : List Nat) (ha : a ≤ 100)
    (hxs : ∀ v ∈ xs, v ≤ 100) (hys : ∀ v ∈ ys, v ≤ 100) :
    correct_out contract (toFloat a) (xs.map toFloat) (ys.map toFloat)
      = List.zipWith (fun x y => a * x + y) xs ys := by
  rw [toFloat_small ha, map_toFloat_small xs hxs, map_toFloat_small ys hys]
  exact zipWith_axpy_exact contract a xs ys ha hxs hys

/-- C17: saxpy_int works for integers. For `a` and all elements of `x` and `y`
drawn from `[0, 100]`, the product `a*x` and the result `a*x + y` are
integers at most 10100, below `2^24`, so neither operation rounds in single
precision (nor does a fused multiply-add, while `2^24 + 1` does round): the
value the kernel stores in `z_d[i]` is the integer `a*x[i] + y[i]`, the host
computes the same integer into `correct_out[i]`, and the check
`z_h == correct_out` passes, for every order of the work-items. -/
theorem saxpy_int_check_passes (contract_host contract_device : Bool) (order : List Nat)
    (a : Nat) (xs ys : List Nat) (ha : a ≤ 100) (hxs : ∀ v ∈ xs, v ≤ 100)
    (hys : ∀ v ∈ ys, v ≤ 100) (hlx : xs.length = VECTOR_SIZE) (hly : ys.length = VECTOR_SIZE)
    (horder : order.Perm (List.range VECTOR_SIZE)) :
    (10100 < 2 ^ 24 ∧ fadd 16777216 1 = 16777216) ∧
    (∀ x y, x ≤ 100 → y ≤ 100 →
      a * x ≤ 10000 ∧ a * x + y ≤ 10100 ∧
      toFloat a = a ∧ toFloat x = x ∧ toFloat y = y ∧
      fmul (toFloat a) (toFloat x) = a * x ∧
      fadd (fmul (toFloat a) (toFloat x)) (toFloat y) = a * x + y ∧
      axpy contract_device (toFloat a) (toFloat x) (toFloat y) = a * x + y ∧
      axpy contract_host (toFloat a) (toFloat x) (toFloat y) = a * x + y) ∧
    launch (saxpy contract_device (toFloat a) (xs.map toFloat) (ys.map toFloat)) order
        (List.replicate VECTOR_SIZE 0)
      = some (List.zipWith (fun x y => a * x + y) xs ys) ∧
    correct_out contract_host (toFloat a) (xs.map toFloat) (ys.map toFloat)
      = List.zipWith (fun x y => a * x + y) xs ys ∧
    main contract_host contract_device order a xs ys = some true := by
  have hcorrect := correct_out_exact contract_host a xs ys ha hxs hys
  have hlaunch := launch_saxpy contract_host contract_device VECTOR_SIZE order a xs ys ha hxs
    hys hlx hly horder
  refine ⟨⟨by decide, fadd_rounds_above_two_pow_24⟩, ?_, hcorrect ▸ hlaunch, hcorrect, ?_⟩
  · intro x y hx hy
    obtain ⟨h1, h2, h3, h4, h5⟩ := axpy_exact contract_device ha hx hy
    rw [toFloat_small ha, toFloat_small hx, toFloat_small hy]
    exact ⟨h1, h2, rfl, rfl, rfl, h3, h4, h5, (axpy_exact contract_host ha hx hy).2.2.2.2⟩
  · simp only [main, hlaunch, decide_True]

/-- Witness for C17: `a = 100` and both vectors filled with 100, the largest
values the distribution gives; every element of `z_h` is 10100. -/
theorem saxpy_int_check_passes_witness :
    launch (saxpy true (toFloat 100) ((List.replicate VECTOR_SIZE 100).map toFloat)
        ((List.replicate VECTOR_SIZE 100).map toFloat)) (List.range VECTOR_SIZE)
        (List.replicate VECTOR_SIZE 0)
      = some (List.zipWith (fun x y => 100 * x + y) (List.replicate VECTOR_SIZE 100)
          (List.replicate VECTOR_SIZE 100)) ∧
    correct_out false (toFloat 100) ((List.replicate VECTOR_SIZE 100).map toFloat)
        ((List.replicate VECTOR_SIZE 100).map toFloat)
      = List.zipWith (fun x y => 100 * x + y) (List.replicate VECTOR_SIZE 100)
          (List.replicate VECTOR_SIZE 100) ∧
    main false true (List.range VECTOR_SIZE) 100 (List.replicate VECTOR_SIZE 100)
      (List.replicate VECTOR_SIZE 100) = some true :=
  (saxpy_int_check_passes false true (List.range VECTOR_SIZE) 100
    (List.replicate VECTOR_SIZE 100) (List.replicate VECTOR_SIZE 100) (by decide)
    (fun v hv => by rw [List.eq_of_mem_replicate hv])
    (fun v hv => by rw [List.eq_of_mem_replicate hv])
    (List.length_replicate _ _) (List.length_replicate _ _) (List.Perm.refl _)).2.2

end saxpy_int
